import Mathlib

/-!
Verification development for the funsig declaration-extraction engine
(`src/parser.ts` and the command-line wrappers around it).

The TypeScript source is shallowly embedded: the concrete syntax tree that
the external tree-sitter backend produces is modelled by the inductive type
`Node` (a node carries its kind string, its named flag, the field name it is
attached to under its parent, start/end offsets, its verbatim text, and its
children).  The parser class's methods are translated one by one into Lean
functions; the external collaborators (file system, grammar loading, the
JavaScript regular-expression engine) are supplied through a `ParseEnv` /
`ExtractCtx` record of function-valued fields, exactly at the call sites
where the source invokes them.
-/

namespace Funsig

/-- Information about a function parameter (`ParameterInfo` in `types.ts`). -/
structure ParameterInfo where
  name : String
  type : String
  optional : Bool
deriving Repr, DecidableEq

/-- A function declaration record (`FunctionDeclaration` in `types.ts`). -/
structure FunctionDeclaration where
  id : Nat
  functionName : String
  lineNo : Nat
  parameters : List ParameterInfo
  returnType : Option String
deriving Repr, DecidableEq

/-- A class declaration record (`ClassDeclaration` in `types.ts`). -/
structure ClassDeclaration where
  id : Nat
  className : String
  lineNo : Nat
  signature : String
  methods : List FunctionDeclaration
deriving Repr, DecidableEq

/-- The per-file result record (`FileDeclaration` in `types.ts`). -/
structure FileDeclaration where
  fileName : String
  functions : List FunctionDeclaration
  classes : List ClassDeclaration
deriving Repr, DecidableEq

/-- A tree-sitter syntax-tree node, as consumed by the engine: a kind
string (`type`), whether the node is a named node, the field name under
which it sits in its parent (if any), start/end byte offsets, its verbatim
source text, and its ordered children. -/
inductive Node : Type where
  | mk : String → Bool → Option String → Nat → Nat → String → List Node → Node
deriving Repr

/-- The node's kind string (`node.type`). -/
def Node.type : Node → String
  | .mk t _ _ _ _ _ _ => t

/-- Whether the node is a named (non-anonymous) node. -/
def Node.named : Node → Bool
  | .mk _ n _ _ _ _ _ => n

/-- The field name the node is attached to under its parent. -/
def Node.field : Node → Option String
  | .mk _ _ f _ _ _ _ => f

/-- The node's start byte offset (`node.startPosition` as the source uses it). -/
def Node.startPosition : Node → Nat
  | .mk _ _ _ s _ _ _ => s

/-- The node's end byte offset (`node.endPosition` as the source uses it). -/
def Node.endPosition : Node → Nat
  | .mk _ _ _ _ e _ _ => e

/-- The node's verbatim source text (`node.text`). -/
def Node.text : Node → String
  | .mk _ _ _ _ _ tx _ => tx

/-- All children of the node, in order (`node.child(i)` for `i < node.childCount`). -/
def Node.children : Node → List Node
  | .mk _ _ _ _ _ _ cs => cs

/-- The first child attached under the given field name
(`node.childForFieldName(name)`). -/
def Node.childForFieldName (n : Node) (f : String) : Option Node :=
  n.children.find? (fun c => c.field == some f)

/-- The named children of the node, in order (`node.namedChild(i)`). -/
def Node.namedChildren (n : Node) : List Node :=
  n.children.filter (·.named)

/-- The first named child (`node.firstNamedChild`). -/
def Node.firstNamedChild (n : Node) : Option Node :=
  n.namedChildren.head?

/-- The last named child (`node.lastNamedChild`). -/
def Node.lastNamedChild (n : Node) : Option Node :=
  n.namedChildren.getLast?

theorem Node.sizeOf_children_lt (n : Node) : sizeOf n.children < sizeOf n := by
  cases n with
  | mk t b f s e tx cs =>
    simp only [Node.children, Node.mk.sizeOf_spec]
    omega

theorem Node.sizeOf_lt_of_mem_children {c n : Node} (h : c ∈ n.children) :
    sizeOf c < sizeOf n :=
  lt_trans (List.sizeOf_lt_of_mem h) n.sizeOf_children_lt

mutual

/-- Boolean structural equality on nodes (children compared by
`Node.beqList`); used to build a `DecidableEq` instance. -/
def Node.beq : Node → Node → Bool
  | .mk t1 b1 f1 s1 e1 x1 cs1, .mk t2 b2 f2 s2 e2 x2 cs2 =>
    t1 == t2 && b1 == b2 && f1 == f2 && s1 == s2 && e1 == e2 && x1 == x2 &&
      Node.beqList cs1 cs2

/-- Boolean structural equality on lists of nodes. -/
def Node.beqList : List Node → List Node → Bool
  | [], [] => true
  | a :: as, b :: bs => Node.beq a b && Node.beqList as bs
  | _, _ => false

end

theorem Node.beqList_eq_of (as : List Node)
    (h : ∀ a ∈ as, ∀ b : Node, Node.beq a b = true ↔ a = b) :
    ∀ bs : List Node, Node.beqList as bs = true ↔ as = bs := by
  induction as with
  | nil => intro bs; cases bs <;> simp [Node.beqList]
  | cons a as ih =>
    intro bs
    cases bs with
    | nil => simp [Node.beqList]
    | cons b bs =>
      simp only [Node.beqList, Bool.and_eq_true, List.cons.injEq]
      rw [h a (List.mem_cons_self a as) b,
        ih (fun a' ha' b' => h a' (List.mem_cons_of_mem a ha') b') bs]

theorem Node.beq_eq_aux : ∀ k : Nat, ∀ a : Node, sizeOf a ≤ k →
    ∀ b : Node, Node.beq a b = true ↔ a = b := by
  intro k
  induction k with
  | zero =>
    intro a h
    cases a with
    | mk t bb f s e tx cs =>
      simp only [Node.mk.sizeOf_spec] at h
      omega
  | succ k ih =>
    intro a ha b
    cases a with
    | mk t1 b1 f1 s1 e1 x1 cs1 =>
      cases b with
      | mk t2 b2 f2 s2 e2 x2 cs2 =>
        simp only [Node.beq, Bool.and_eq_true, beq_iff_eq, Node.mk.injEq]
        have hcs : ∀ c ∈ cs1, ∀ d : Node, Node.beq c d = true ↔ c = d := by
          intro c hc d
          apply ih c
          have h1 : sizeOf c < sizeOf cs1 := List.sizeOf_lt_of_mem hc
          have h2 : sizeOf (Node.mk t1 b1 f1 s1 e1 x1 cs1) ≤ k + 1 := ha
          simp only [Node.mk.sizeOf_spec] at h2
          omega
        rw [Node.beqList_eq_of cs1 hcs cs2]
        tauto

theorem Node.beq_iff_eq (a b : Node) : Node.beq a b = true ↔ a = b :=
  Node.beq_eq_aux (sizeOf a) a (le_refl _) b

instance : DecidableEq Node := fun a b => decidable_of_iff _ (Node.beq_iff_eq a b)

/-! ### String and map helpers

These model the JavaScript `String.prototype` operations the engine uses,
working on the underlying character list (so they also evaluate by kernel
reduction on concrete inputs): `substring` models
`String.prototype.substring(start, end)` (character offsets, as the source
uses offsets into `fileContent`); `getLineNumber` models the engine's
1-based line computation `fileContent.substring(0, pos).split('\n').length`
(which equals one plus the number of newline characters in the prefix);
`strContains` models `String.prototype.includes`; `strTrim`, `strDrop`,
`strStartsWith`, `strEndsWith` and `lowerStr` model `trim`, `substring(n)`,
`startsWith`, `endsWith` and `toLowerCase`; the `map*` functions model the
JavaScript `Map` operations on association lists kept in insertion
order. -/

/-- Model of `fileContent.substring(a, b)` for `a ≤ b` (the only way the
engine calls it). -/
def substring (s : String) (a b : Nat) : String :=
  String.mk ((s.data.take b).drop a)

/-- Model of `fileContent.substring(0, pos).split('\n').length`: the
1-based line number of offset `pos` in `content` (one plus the number of
newline characters before `pos`). -/
def getLineNumber (content : String) (pos : Nat) : Nat :=
  ((content.data.take pos).countP (fun c => c == '\n')) + 1

/-- Substring containment on character lists. -/
def containsSub : List Char → List Char → Bool
  | s, pat =>
    if pat.isPrefixOf s then true
    else
      match s with
      | [] => false
      | _ :: t => containsSub t pat

/-- Model of `s.includes(pat)`. -/
def strContains (s pat : String) : Bool :=
  containsSub s.data pat.data

/-- Model of `s.trim()`. -/
def strTrim (s : String) : String :=
  String.mk
    (((s.data.dropWhile Char.isWhitespace).reverse.dropWhile Char.isWhitespace).reverse)

/-- Model of `s.substring(n)`: drop the first `n` characters. -/
def strDrop (s : String) (n : Nat) : String :=
  String.mk (s.data.drop n)

/-- Model of `s.startsWith(pre)`. -/
def strStartsWith (s pre : String) : Bool :=
  pre.data.isPrefixOf s.data

/-- Model of `s.endsWith(suf)`. -/
def strEndsWith (s suf : String) : Bool :=
  suf.data.reverse.isPrefixOf s.data.reverse

/-- Model of `s.toLowerCase()` (on the ASCII range the engine cares
about). -/
def lowerStr (s : String) : String :=
  String.mk (s.data.map Char.toLower)

/-- Split a character list on a separator character (model of
`String.prototype.split` with a one-character separator). -/
def splitOnChar (c : Char) : List Char → List (List Char)
  | [] => [[]]
  | a :: as =>
    match splitOnChar c as with
    | [] => [[]]
    | h :: t => if a = c then [] :: h :: t else (a :: h) :: t

/-- Model of `Map.prototype.set`: overwrite in place if the key exists,
else append. -/
def mapSet {α β : Type} [BEq α] (m : List (α × β)) (k : α) (v : β) : List (α × β) :=
  if m.any (fun e => e.1 == k) then
    m.map (fun e => if e.1 == k then (k, v) else e)
  else m ++ [(k, v)]

/-- Model of `Map.prototype.has`. -/
def mapHas {α β : Type} [BEq α] (m : List (α × β)) (k : α) : Bool :=
  m.any (fun e => e.1 == k)

/-- Model of `Map.prototype.get` with a default for a missing key. -/
def mapGetD {α β : Type} [BEq α] (m : List (α × β)) (k : α) (d : β) : β :=
  match m.find? (fun e => e.1 == k) with
  | some e => e.2
  | none => d

/-- Model of `Map.prototype.get` / JavaScript object indexing returning
`undefined` for a missing key. -/
def mapFind {α β : Type} [BEq α] (m : List (α × β)) (k : α) : Option β :=
  (m.find? (fun e => e.1 == k)).map (·.2)

/-! ### Name, signature, parameter and return-type extraction
(`CodeParser.getNodeName`, `getClassSignature`, `extractParameters`,
`extractReturnType`). -/

/-- Model of `CodeParser.getNodeName`: resolve the name node according to
the node kind and return its text (empty string when unresolved). -/
def getNodeName (node : Node) : String :=
  let nameNode : Option Node :=
    if node.type = "function_declaration" ∨ node.type = "class_declaration" ∨
        node.type = "interface_declaration" ∨ node.type = "enum_declaration" then
      node.childForFieldName "name"
    else if node.type = "method_definition" then
      node.childForFieldName "name"
    else if node.type = "variable_declarator" then
      node.firstNamedChild
    else if node.type = "property_signature" ∨ node.type = "property_definition" then
      node.childForFieldName "name"
    else none
  match nameNode with
  | some n => n.text
  | none => ""

/-- Model of the source's inner `extractTypeAnnotation` helper: slice the
type node's span out of the file text, trim it, and strip one leading
colon.  The JavaScript guard `if (!typeNode || !fileContent) return ''`
makes the result empty for empty file content. -/
def extractTypeAnno (content : String) (typeNode : Node) : String :=
  if content = "" then ""
  else
    let typeText := strTrim (substring content typeNode.startPosition typeNode.endPosition)
    if strStartsWith typeText ":" then strTrim (strDrop typeText 1) else typeText

/-- Model of `CodeParser.getClassSignature`: the verbatim slice from the
class node's start to its body's start, trimmed; `"class " + name` when
there is no body; empty for non-class nodes. -/
def getClassSignature (content : String) (node : Node) : String :=
  if node.type ≠ "class_declaration" then ""
  else
    match node.childForFieldName "body" with
    | some bodyNode => strTrim (substring content node.startPosition bodyNode.startPosition)
    | none => "class " ++ getNodeName node

/-- Model of the per-parameter branch of `CodeParser.extractParameters`:
the `(name, type, optional)` triple obtained from syntax alone for one
parameter node, before the doc-comment merge. -/
def paramSyntaxInfo (content : String) (param : Node) : String × String × Bool :=
  if param.type = "identifier" then
    (param.text,
     (match param.childForFieldName "type" with
      | some t => extractTypeAnno content t
      | none => ""),
     false)
  else if param.type = "assignment_pattern" then
    match param.childForFieldName "left" with
    | some leftNode =>
      (leftNode.text,
       (match leftNode.childForFieldName "type" with
        | some t => extractTypeAnno content t
        | none => ""),
       true)
    | none => ("", "", false)
  else if param.type = "rest_parameter" then
    match param.firstNamedChild with
    | some restNode =>
      (restNode.text,
       (match param.childForFieldName "type" with
        | some t => extractTypeAnno content t
        | none => "rest"),
       false)
    | none => ("", "", false)
  else if param.type = "object_pattern" then
    ("\x7b" ++ param.text ++ "\x7d", "object", false)
  else if param.type = "array_pattern" then
    ("[" ++ param.text ++ "]", "array", false)
  else if param.type = "required_parameter" then
    ((match param.childForFieldName "pattern" with
      | some p => p.text
      | none => ""),
     (match param.childForFieldName "type" with
      | some t => extractTypeAnno content t
      | none => ""),
     false)
  else if param.type = "optional_parameter" then
    ((match param.childForFieldName "pattern" with
      | some p => p.text
      | none => ""),
     (match param.childForFieldName "type" with
      | some t => extractTypeAnno content t
      | none => ""),
     (param.childForFieldName "pattern").isSome)
  else if param.type = "parameter" then
    ((match (param.childForFieldName "pattern" <|> param.firstNamedChild) with
      | some p => p.text
      | none => ""),
     (match param.childForFieldName "type" with
      | some t => extractTypeAnno content t
      | none => ""),
     (param.childForFieldName "question").isSome)
  else ("", "", false)

/-- Model of the tail of the parameter loop in `extractParameters`: merge
the syntactic triple with the doc-comment-derived type map (the doc type
is used only when the name is known, the map has an entry, and no explicit
syntactic type was found), then push the parameter when the name is
non-empty. -/
def processParam (content : String) (paramTypesMap : List (String × String))
    (param : Node) : Option ParameterInfo :=
  let info := paramSyntaxInfo content param
  let paramName := info.1
  let paramType0 := info.2.1
  let isOptional := info.2.2
  let paramType :=
    if paramName ≠ "" ∧ mapHas paramTypesMap paramName = true ∧ paramType0 = "" then
      mapGetD paramTypesMap paramName ""
    else paramType0
  if paramName ≠ "" then some ⟨paramName, paramType, isOptional⟩ else none

/-- Model of the `formalParams` resolution switch at the head of
`extractParameters`. -/
def formalParamsOf (node : Node) : Option Node :=
  if node.type = "function_declaration" ∨ node.type = "method_definition" ∨
      node.type = "method_signature" then
    node.childForFieldName "parameters"
  else if node.type = "variable_declarator" then
    match node.childForFieldName "value" with
    | some valueNode =>
      if valueNode.type = "arrow_function" ∨ valueNode.type = "function" then
        valueNode.childForFieldName "parameters"
      else none
    | none => none
  else if node.type = "arrow_function" ∨ node.type = "function" ∨
      node.type = "function_type" then
    node.childForFieldName "parameters"
  else if node.type = "property_signature" then
    match node.childForFieldName "type" with
    | some typeNode =>
      if typeNode.type = "function_type" then
        typeNode.childForFieldName "parameters"
      else none
    | none => none
  else none

/-- Model of `CodeParser.extractParameters`: resolve the formal-parameter
list, then process each named child.  The doc-comment-derived type map
(computed in the source by the regular expression in
`extractJSDocParamTypes`) is passed in as `paramTypesMap`. -/
def extractParameters (content : String) (paramTypesMap : List (String × String))
    (node : Node) : List ParameterInfo :=
  match formalParamsOf node with
  | none => []
  | some formalParams =>
    formalParams.namedChildren.filterMap (processParam content paramTypesMap)

/-- Model of the source's inner `cleanTypeAnnotation` helper of
`extractReturnType`. -/
def cleanTypeAnno (typeText : String) : String :=
  let cleanType := strTrim typeText
  if strStartsWith cleanType ":" then strTrim (strDrop cleanType 1) else cleanType

/-- Model of the source's inner `extractTypeFromNode` helper of
`extractReturnType` (including the `!fileContent` guard). -/
def extractTypeFromNode (content : String) (node : Node) : Option String :=
  if content = "" then none
  else
    match (node.childForFieldName "return_type" <|>
           node.childForFieldName "type_annotation" <|>
           node.childForFieldName "type") with
    | some rt => some (cleanTypeAnno (substring content rt.startPosition rt.endPosition))
    | none => none

/-- Model of the syntactic part of `CodeParser.extractReturnType` (the
switch on the node kind, before the doc-comment fallback). -/
def extractReturnTypeSyn (content : String) (node : Node) : Option String :=
  if node.type = "function_declaration" ∨ node.type = "method_definition" ∨
      node.type = "method_signature" then
    extractTypeFromNode content node
  else if node.type = "variable_declarator" then
    match node.childForFieldName "value" with
    | some valueNode =>
      if valueNode.type = "arrow_function" ∨ valueNode.type = "function" then
        extractTypeFromNode content valueNode
      else none
    | none => none
  else if node.type = "arrow_function" ∨ node.type = "function" then
    extractTypeFromNode content node
  else if node.type = "property_signature" then
    match node.childForFieldName "type" with
    | some typeNode =>
      if typeNode.type = "function_type" then
        match typeNode.childForFieldName "return_type" with
        | some rt =>
          if content ≠ "" then
            some (cleanTypeAnno (substring content rt.startPosition rt.endPosition))
          else none
        | none => none
      else extractTypeFromNode content node
    | none => extractTypeFromNode content node
  else if node.type = "function_type" then
    match node.childForFieldName "return_type" with
    | some rt =>
      if content ≠ "" then
        some (cleanTypeAnno (substring content rt.startPosition rt.endPosition))
      else none
    | none => none
  else none

/-! ### Comment index and comment association
(`CodeParser.buildCommentMap`, `CodeParser.findClosestComment`).  The
comment map is an association list from comment-end offset to comment
text, kept in `Map` insertion order.  The regex pass of
`buildCommentMap` is supplied by the environment (`ParseEnv.regexComments`
models the JavaScript regular-expression scan); the subsequent AST walk is
modelled by `processCommentNode`. -/

/-- An auxiliary size bound: a sublist is no larger than the list it came
from. -/
theorem sizeOfList_le_of_sublist {α : Type} [SizeOf α] {l₁ l₂ : List α}
    (h : l₁.Sublist l₂) : sizeOf l₁ ≤ sizeOf l₂ := by
  induction h with
  | slnil => exact le_refl _
  | cons a _ ih => simp only [List.cons.sizeOf_spec]; omega
  | cons₂ a _ ih => simp only [List.cons.sizeOf_spec]; omega

mutual

/-- Model of the recursive AST pass of `buildCommentMap`: record every
node whose kind is `comment` or contains `comment`, then process all
children. -/
def processCommentNode (content : String) (node : Node)
    (m : List (Nat × String)) : List (Nat × String) :=
  let m :=
    if node.type = "comment" ∨ strContains node.type "comment" = true then
      mapSet m node.endPosition (substring content node.startPosition node.endPosition)
    else m
  processCommentList content node.children m
termination_by sizeOf node
decreasing_by exact node.sizeOf_children_lt

/-- List companion of `processCommentNode`. -/
def processCommentList (content : String) (nodes : List Node)
    (m : List (Nat × String)) : List (Nat × String) :=
  match nodes with
  | [] => m
  | n :: ns => processCommentList content ns (processCommentNode content n m)
termination_by sizeOf nodes

end

/-- Model of `CodeParser.buildCommentMap`: the regex scan entries are set
first (in match order), then the AST pass adds or overwrites entries. -/
def buildCommentMap (regexEntries : List (Nat × String)) (root : Node)
    (content : String) : List (Nat × String) :=
  let m := regexEntries.foldl (fun m e => mapSet m e.1 e.2) []
  processCommentNode content root m

/-- Model of the `distance < closestDistance` comparison of
`findClosestComment`, with `none` standing for the initial `Infinity`. -/
def isCloser (closestDistance : Option Int) (distance : Int) : Bool :=
  match closestDistance with
  | none => true
  | some d => distance < d

/-- Model of one iteration of the candidate loop of `findClosestComment`. -/
def closestStep (content : String) (nodeStart : Nat) (nodeLine : Nat)
    (acc : Option String × Option Int) (e : Nat × String) :
    Option String × Option Int :=
  if e.1 < nodeStart then
    let commentEndLine := getLineNumber content e.1
    let distance : Int := (nodeLine : Int) - (commentEndLine : Int)
    if 0 ≤ distance ∧ distance < 10 ∧ isCloser acc.2 distance = true then
      (some e.2, some distance)
    else acc
  else acc

/-- Model of `CodeParser.findClosestComment`: scan the comment map in
insertion order keeping the comment with the smallest line distance in
`[0, 10)` that ends strictly before the node start (the initial
`!node.startPosition` guard returns `null` for offset 0). -/
def findClosestComment (content : String) (commentMap : List (Nat × String))
    (nodeStart : Nat) : Option String :=
  if nodeStart = 0 then none
  else
    let nodeLine := getLineNumber content nodeStart
    (commentMap.foldl (closestStep content nodeStart nodeLine) (none, none)).1

/-! ### The tree dispatcher (`CodeParser.traverseTree`)

The dispatcher is generic in the visitor state, exactly as the source's
`traverseTree` is generic in the visitor callbacks; `traverseList` is the
`for`-loop over a child list. -/

mutual

/-- Model of `CodeParser.traverseTree`: the switch on the node kind, the
class-body skip, the declarator scan of variable/lexical declarations, the
function-shaped type-alias case, the transparent export wrapper, the enum
case, and the generic recursion into all children. -/
def traverseTree {S : Type} (visitF visitC : Node → S → S) (node : Node) (st : S) : S :=
  if node.type = "function_declaration" ∨ node.type = "method_definition" ∨
      node.type = "generator_function_declaration" ∨ node.type = "function" then
    traverseList visitF visitC node.children (visitF node st)
  else if node.type = "class_declaration" then
    let st := visitC node st
    match node.childForFieldName "body" with
    | some _ =>
      traverseList visitF visitC
        (node.children.eraseP (fun c => c.field == some "body")) st
    | none => traverseList visitF visitC node.children st
  else if node.type = "variable_declaration" ∨ node.type = "lexical_declaration" then
    let st := node.namedChildren.foldl
      (fun s declarator =>
        if declarator.type = "variable_declarator" then
          match declarator.lastNamedChild with
          | some valueNode =>
            if valueNode.type = "arrow_function" ∨ valueNode.type = "function" then
              visitF declarator s
            else s
          | none => s
        else s) st
    traverseList visitF visitC node.children st
  else if node.type = "type_alias_declaration" then
    let st :=
      match node.childForFieldName "value" with
      | some typeNode =>
        if typeNode.type = "function_type" ∨ typeNode.type = "arrow_function" then
          visitF node st
        else st
      | none => st
    traverseList visitF visitC node.children st
  else if node.type = "export_statement" then
    traverseList visitF visitC node.children st
  else if node.type = "enum_declaration" then
    traverseList visitF visitC node.children (visitC node st)
  else
    traverseList visitF visitC node.children st
termination_by sizeOf node
decreasing_by
  all_goals
    first
    | exact lt_of_le_of_lt (sizeOfList_le_of_sublist (List.eraseP_sublist _))
        node.sizeOf_children_lt
    | exact node.sizeOf_children_lt

/-- The `for`-loop over a child list inside `traverseTree`. -/
def traverseList {S : Type} (visitF visitC : Node → S → S) (nodes : List Node) (st : S) : S :=
  match nodes with
  | [] => st
  | n :: ns => traverseList visitF visitC ns (traverseTree visitF visitC n st)
termination_by sizeOf nodes

end

/-! ### The declaration assembler (`CodeParser.extractDeclarations`)

The visitors (`visitFunction`, `visitClass` in the source) are modelled as
state transformers on `ExtractState` which holds the shared id counter and
the two accumulated record lists.  `ExtractCtx` carries the per-file data
the visitors close over: the file content, the TypeScript flag, the
regex-derived whole-file type-info map, the comment map, and the two
doc-comment regular expressions (as functions, supplied by the
environment). -/

/-- One entry of the whole-file TypeScript `typeInfo` map: a parameter
name-to-type map and a return type. -/
structure TypeInfoEntry where
  params : List (String × String)
  returnType : String
deriving Repr, DecidableEq

/-- The data the `extractDeclarations` visitors close over. -/
structure ExtractCtx where
  content : String
  isTypeScript : Bool
  typeInfo : List (String × TypeInfoEntry)
  commentMap : List (Nat × String)
  docParams : String → List (String × String)
  docReturns : String → Option String

/-- The mutable state of one `extractDeclarations` run: the shared
`idCounter` and the accumulated `functions` and `classes` lists. -/
structure ExtractState where
  idCounter : Nat
  functions : List FunctionDeclaration
  classes : List ClassDeclaration
deriving Repr, DecidableEq

/-- The associated doc comment of a node
(`findClosestComment(node, commentMap, fileContent)` at a visitor site). -/
def jsDocFor (ctx : ExtractCtx) (node : Node) : Option String :=
  findClosestComment ctx.content ctx.commentMap node.startPosition

/-- The doc-comment parameter-type map for a node
(`extractJSDocParamTypes` applied to the associated comment; the regular
expression itself is `ctx.docParams`, and a missing comment yields the
empty map). -/
def docParamsFor (ctx : ExtractCtx) (node : Node) : List (String × String) :=
  match jsDocFor ctx node with
  | some d => ctx.docParams d
  | none => []

/-- Model of `CodeParser.extractReturnType`: the syntactic switch, then
the `@returns` doc-comment fallback (the regular expression is
`ctx.docReturns`) when the syntactic result is absent or empty.  As in the
source, the associated comment is passed in by the caller. -/
def extractReturnType (ctx : ExtractCtx) (node : Node) (jsDoc : Option String) :
    Option String :=
  let rt := extractReturnTypeSyn ctx.content node
  if rt = none ∨ rt = some "" then
    match jsDoc with
    | some d =>
      match ctx.docReturns d with
      | some t => some t
      | none => rt
    | none => rt
  else rt

/-- JavaScript string truthiness for an optional lookup result. -/
def jsTruthyStr (o : Option String) : Bool :=
  match o with
  | some s => !(s == "")
  | none => false

/-- Model of the TypeScript type-info enhancement block that appears (four
times, verbatim) in the source's visitors: when the file is TypeScript and
the whole-file map has an entry for the declaration's name, parameter
types are overwritten from the entry's parameter map (keyed by parameter
name) and an absent or empty return type is replaced by the entry's return
type. -/
def applyTypeInfo (ctx : ExtractCtx) (name : String)
    (params : List ParameterInfo) (returnType : Option String) :
    List ParameterInfo × Option String :=
  if ctx.isTypeScript = true then
    match mapFind ctx.typeInfo name with
    | some entry =>
      let params := params.map (fun p =>
        if p.name ≠ "" ∧ jsTruthyStr (mapFind entry.params p.name) = true then
          { p with type := (mapFind entry.params p.name).getD "" }
        else p)
      let returnType :=
        if entry.returnType ≠ "" ∧ (returnType = none ∨ returnType = some "") then
          some entry.returnType
        else returnType
      (params, returnType)
    | none => (params, returnType)
  else (params, returnType)

/-- Model of the `visitFunction` visitor of `extractDeclarations`: resolve
the name, and when it is non-empty assemble a `FunctionDeclaration` with
the next id from the shared counter. -/
def visitFunction (ctx : ExtractCtx) (node : Node) (st : ExtractState) : ExtractState :=
  let name := getNodeName node
  if name ≠ "" then
    let params := extractParameters ctx.content (docParamsFor ctx node) node
    let returnType := extractReturnType ctx node (jsDocFor ctx node)
    let enhanced := applyTypeInfo ctx name params returnType
    { st with
      idCounter := st.idCounter + 1,
      functions := st.functions ++
        [⟨st.idCounter, name, getLineNumber ctx.content node.startPosition,
          enhanced.1, enhanced.2⟩] }
  else st

/-- Model of the member branches of the `visitClass` visitor: for one
direct named child of the class body, the name, parameters and return type
of the member record, or `none` when the child is not a recognized member
shape (`method_definition`, `property_definition` holding an
arrow-function or function value, `method_signature`, or
`property_signature` with a function type). -/
def classMemberCore (ctx : ExtractCtx) (child : Node) :
    Option (String × List ParameterInfo × Option String) :=
  if child.type = "method_definition" then
    let methodName := getNodeName child
    if methodName ≠ "" then
      let params := extractParameters ctx.content (docParamsFor ctx child) child
      let returnType := extractReturnType ctx child (jsDocFor ctx child)
      let enhanced := applyTypeInfo ctx methodName params returnType
      some (methodName, enhanced.1, enhanced.2)
    else none
  else if child.type = "property_definition" ∧
      (child.childForFieldName "value").isSome then
    let propName := getNodeName child
    match child.childForFieldName "value" with
    | some valueNode =>
      if propName ≠ "" ∧
          (valueNode.type = "arrow_function" ∨ valueNode.type = "function") then
        let params := extractParameters ctx.content (docParamsFor ctx child) valueNode
        let returnType := extractReturnType ctx valueNode (jsDocFor ctx child)
        let enhanced := applyTypeInfo ctx propName params returnType
        some (propName, enhanced.1, enhanced.2)
      else none
    | none => none
  else if child.type = "method_signature" ∨ child.type = "property_signature" then
    let memberName := getNodeName child
    match child.childForFieldName "type" with
    | some typeNode =>
      if memberName ≠ "" ∧
          (typeNode.type = "function_type" ∨ child.type = "method_signature") then
        let params := extractParameters ctx.content (docParamsFor ctx child) child
        let returnType := extractReturnType ctx child (jsDocFor ctx child)
        let enhanced := applyTypeInfo ctx memberName params returnType
        some (memberName, enhanced.1, enhanced.2)
      else none
    | none => none
  else none

/-- The member record pushed by `visitClass` for one recognized body
child, with the given id and the line number of the child. -/
def classMemberRecord (ctx : ExtractCtx) (child : Node) (id : Nat) :
    Option FunctionDeclaration :=
  (classMemberCore ctx child).map (fun core =>
    ⟨id, core.1, getLineNumber ctx.content child.startPosition,
      core.2.1, core.2.2⟩)

/-- Model of the `visitClass` visitor of `extractDeclarations`: when the
class name resolves, process the direct named children of the body (each
recognized member consuming one id), then push the class record with the
next id. -/
def visitClassDecl (ctx : ExtractCtx) (node : Node) (st : ExtractState) : ExtractState :=
  let className := getNodeName node
  if className ≠ "" then
    let classSignature := getClassSignature ctx.content node
    let folded : List FunctionDeclaration × Nat :=
      match node.childForFieldName "body" with
      | some body =>
        body.namedChildren.foldl
          (fun acc child =>
            match classMemberRecord ctx child acc.2 with
            | some r => (acc.1 ++ [r], acc.2 + 1)
            | none => acc)
          ([], st.idCounter)
      | none => ([], st.idCounter)
    { st with
      idCounter := folded.2 + 1,
      classes := st.classes ++
        [⟨folded.2, className, getLineNumber ctx.content node.startPosition,
          classSignature, folded.1⟩] }
  else st

/-! ### The engine boundary (`parseFile`, `parseDirectory`)

`ParseEnv` packages the external collaborators: grammar loading
(`initParser`'s `require`), the file system, the tree producer, and the
three regular-expression passes (comment scan, whole-file TypeScript
type-info scan, doc-comment tag parsing). -/

/-- The external collaborators of the engine. -/
structure ParseEnv where
  loadLanguage : String → Except String Unit
  readFile : String → Except String String
  parseTree : String → Node
  regexComments : String → List (Nat × String)
  typeInfoOf : String → List (String × TypeInfoEntry)
  docParams : String → List (String × String)
  docReturns : String → Option String

/-- Model of `CodeParser.extractDeclarations` (driven by `traverseTree`
with the two visitors), starting from the current value of the shared id
counter. -/
def extractDeclarations (env : ParseEnv) (filePath content : String)
    (root : Node) (idCounter : Nat) : ExtractState :=
  let isTypeScript := strEndsWith filePath ".ts" || strEndsWith filePath ".tsx"
  let ctx : ExtractCtx :=
    { content := content,
      isTypeScript := isTypeScript,
      typeInfo := if isTypeScript then env.typeInfoOf content else [],
      commentMap := buildCommentMap (env.regexComments content) root content,
      docParams := env.docParams,
      docReturns := env.docReturns }
  traverseTree (visitFunction ctx) (visitClassDecl ctx) root
    ⟨idCounter, [], []⟩

/-- Model of `path.extname`: the extension (with dot) of the final path
component, empty for dotfiles and extension-less names. -/
def extname (p : String) : String :=
  let base := (splitOnChar '/' p.data).getLastD p.data
  let parts := splitOnChar '.' base
  if parts.length ≤ 1 then ""
  else if parts.length = 2 ∧ parts.headD ['x'] = [] then ""
  else String.mk ('.' :: parts.getLastD [])

/-- Model of `CodeParser.getLanguageForFile`: the fixed extension-to-
grammar switch on the lower-cased extension. -/
def getLanguageForFile (filePath : String) : String :=
  let ext := lowerStr (extname filePath)
  if ext = ".js" then "javascript"
  else if ext = ".ts" then "typescript"
  else if ext = ".jsx" then "javascript"
  else if ext = ".tsx" then "tsx"
  else if ext = ".py" then "python"
  else if ext = ".rb" then "ruby"
  else if ext = ".java" then "java"
  else if ext = ".c" ∨ ext = ".h" then "c"
  else if ext = ".cpp" ∨ ext = ".hpp" ∨ ext = ".cc" then "cpp"
  else if ext = ".cs" then "c_sharp"
  else if ext = ".go" then "go"
  else if ext = ".php" then "php"
  else if ext = ".rs" then "rust"
  else if ext = ".json" then "json"
  else "unknown"

/-- Model of `CodeParser.parseFile`: the try/catch body.  Unsupported or
explicitly excluded extensions, a grammar-load failure, and a file-read
failure each yield the empty `FileDeclaration` for the given path (the
`catch` clause), leaving the shared id counter untouched; otherwise the
tree is produced and the declarations extracted.  The returned pair also
carries the value of the shared id counter after the call. -/
def parseFile (env : ParseEnv) (filePath : String) (idCounter : Nat) :
    FileDeclaration × Nat :=
  let language := getLanguageForFile filePath
  if language = "unknown" ∨ language = "json" then
    (⟨filePath, [], []⟩, idCounter)
  else
    match env.loadLanguage language with
    | .error _ => (⟨filePath, [], []⟩, idCounter)
    | .ok _ =>
      match env.readFile filePath with
      | .error _ => (⟨filePath, [], []⟩, idCounter)
      | .ok fileContent =>
        let tree := env.parseTree fileContent
        let st := extractDeclarations env filePath fileContent tree idCounter
        (⟨filePath, st.functions, st.classes⟩, st.idCounter)

/-- The exported top-level `parseFile` wrapper: a fresh `CodeParser`
instance is created, so the shared id counter starts at 1. -/
def parseFileTop (env : ParseEnv) (filePath : String) : FileDeclaration :=
  (parseFile env filePath 1).1

/-- Model of `CodeParser.parseDirectory` (as invoked through the exported
wrapper on a fresh instance): the id counter is reset to 1, the file list
is produced by the external `findFiles` scan (an `Except`, since directory
scanning may fail, in which case the `catch` yields the empty list), and
each file is parsed in order with the counter threaded through. -/
def parseDirectory (env : ParseEnv) (findFilesResult : Except String (List String)) :
    List FileDeclaration :=
  match findFilesResult with
  | .error _ => []
  | .ok files =>
    (files.foldl
      (fun (acc : List FileDeclaration × Nat) file =>
        let r := parseFile env file acc.2
        (acc.1 ++ [r.1], r.2))
      ([], 1)).1

/-! ### A generic invariant lemma for the dispatcher

Every state change during traversal happens through one of the two
visitors, so any reflexive-transitive relation preserved by both visitors
is preserved by the whole traversal. -/

theorem foldl_rel {S : Type} (R : S → S → Prop) (hrefl : ∀ s, R s s)
    (htrans : ∀ a b c, R a b → R b c → R a c)
    (f : S → Node → S) (hstep : ∀ s n, R s (f s n)) :
    ∀ (l : List Node) (s : S), R s (l.foldl f s) := by
  intro l
  induction l with
  | nil => intro s; exact hrefl s
  | cons n ns ih => intro s; exact htrans _ _ _ (hstep s n) (ih (f s n))

theorem traverseList_rel {S : Type} (R : S → S → Prop) (hrefl : ∀ s, R s s)
    (htrans : ∀ a b c, R a b → R b c → R a c)
    (vF vC : Node → S → S) (l : List Node)
    (hl : ∀ n ∈ l, ∀ s, R s (traverseTree vF vC n s)) :
    ∀ s, R s (traverseList vF vC l s) := by
  induction l with
  | nil => intro s; rw [traverseList]; exact hrefl s
  | cons n ns ih =>
    intro s
    rw [traverseList]
    exact htrans _ _ _ (hl n (List.mem_cons_self n ns) s)
      (ih (fun m hm => hl m (List.mem_cons_of_mem n hm)) _)

theorem traverseTree_rel_aux {S : Type} (R : S → S → Prop) (hrefl : ∀ s, R s s)
    (htrans : ∀ a b c, R a b → R b c → R a c)
    (vF vC : Node → S → S) (hF : ∀ n s, R s (vF n s)) (hC : ∀ n s, R s (vC n s)) :
    ∀ (k : Nat) (n : Node), sizeOf n ≤ k → ∀ s, R s (traverseTree vF vC n s) := by
  intro k
  induction k with
  | zero =>
    intro n h
    cases n with
    | mk t b f s e tx cs =>
      simp only [Node.mk.sizeOf_spec] at h
      omega
  | succ k ih =>
    intro n hn s
    have hchild : ∀ c ∈ n.children, ∀ s, R s (traverseTree vF vC c s) := by
      intro c hc s
      refine ih c ?_ s
      have := Node.sizeOf_lt_of_mem_children hc
      omega
    have hlist : ∀ s, R s (traverseList vF vC n.children s) :=
      traverseList_rel R hrefl htrans vF vC n.children hchild
    have hlist' : ∀ s, R s (traverseList vF vC
        (n.children.eraseP (fun c => c.field == some "body")) s) :=
      traverseList_rel R hrefl htrans vF vC _
        (fun c hc => hchild c (List.mem_of_mem_eraseP hc))
    rw [traverseTree]
    split_ifs with h1 h2 h3 h4 h5 h6
    · exact htrans _ _ _ (hF n s) (hlist _)
    · cases hb : n.childForFieldName "body" with
      | some b =>
        simp only [hb]
        exact htrans _ _ _ (hC n s) (hlist' _)
      | none =>
        simp only [hb]
        exact htrans _ _ _ (hC n s) (hlist _)
    · refine htrans _ _ _ ?_ (hlist _)
      refine foldl_rel R hrefl htrans _ ?_ n.namedChildren s
      intro s' d
      by_cases hd : d.type = "variable_declarator"
      · simp only [hd, if_true]
        cases hv : d.lastNamedChild with
        | some v =>
          by_cases hvt : v.type = "arrow_function" ∨ v.type = "function"
          · simp only [hvt, if_true]
            exact hF d s'
          · simp only [hvt, if_false]
            exact hrefl s'
        | none => exact hrefl s'
      · simp only [hd, if_false]
        exact hrefl s'
    · refine htrans _ _ _ ?_ (hlist _)
      cases hv : n.childForFieldName "value" with
      | some t =>
        simp only [hv]
        by_cases htt : t.type = "function_type" ∨ t.type = "arrow_function"
        · simp only [htt, if_true]
          exact hF n s
        · simp only [htt, if_false]
          exact hrefl s
      | none =>
        simp only [hv]
        exact hrefl s
    · exact hlist s
    · exact htrans _ _ _ (hC n s) (hlist _)
    · exact hlist s

/-- Any reflexive-transitive relation preserved by both visitors is
preserved by `traverseTree`. -/
theorem traverseTree_rel {S : Type} (R : S → S → Prop) (hrefl : ∀ s, R s s)
    (htrans : ∀ a b c, R a b → R b c → R a c)
    (vF vC : Node → S → S) (hF : ∀ n s, R s (vF n s)) (hC : ∀ n s, R s (vC n s))
    (n : Node) (s : S) : R s (traverseTree vF vC n s) :=
  traverseTree_rel_aux R hrefl htrans vF vC hF hC (sizeOf n) n (le_refl _) s

/-! ### Dense id assignment

`allIds` collects every id occurring in an extraction state (top-level
functions, then for each class its methods followed by the class itself);
`ExtIds st st'` says that `st'` extends `st` by exactly the ids
`st.idCounter, st.idCounter + 1, …, st'.idCounter - 1`.  Both visitors are
`ExtIds` steps, so by `traverseTree_rel` the whole extraction assigns a
dense, duplicate-free range of ids. -/

/-- Every id in an extraction state: function record ids followed by, for
each class, its method ids and then-the class id. -/
def allIds (st : ExtractState) : List Nat :=
  st.functions.map (·.id) ++
    st.classes.flatMap (fun cl => cl.methods.map (·.id) ++ [cl.id])

/-- The state `st'` extends `st` by exactly the dense id range from
`st.idCounter` (inclusive) to `st'.idCounter` (exclusive). -/
def ExtIds (st st' : ExtractState) : Prop :=
  st.idCounter ≤ st'.idCounter ∧
    List.Perm (allIds st')
      (allIds st ++ List.range' st.idCounter (st'.idCounter - st.idCounter))

theorem extIds_refl (st : ExtractState) : ExtIds st st :=
  ⟨le_refl _, by simp⟩

theorem extIds_trans (a b c : ExtractState) (h1 : ExtIds a b) (h2 : ExtIds b c) :
    ExtIds a c := by
  obtain ⟨l1, p1⟩ := h1
  obtain ⟨l2, p2⟩ := h2
  refine ⟨le_trans l1 l2, ?_⟩
  have h3 : List.range' b.idCounter (c.idCounter - b.idCounter) =
      List.range' (a.idCounter + (b.idCounter - a.idCounter))
        (c.idCounter - b.idCounter) := by
    congr 1
    omega
  have h5 : (c.idCounter - b.idCounter) + (b.idCounter - a.idCounter) =
      c.idCounter - a.idCounter := by omega
  refine p2.trans ?_
  refine ((p1.append_right _).trans ?_)
  rw [List.append_assoc, h3, List.range'_append_1, h5]

theorem perm_middle_append {α : Type} (A C : List α) (c : α) :
    ((A ++ [c]) ++ C).Perm ((A ++ C) ++ [c]) := by
  rw [List.append_assoc, List.append_assoc]
  exact List.Perm.append_left A List.perm_append_comm

/-- Appending one function record carrying the current counter value is an
`ExtIds` step. -/
theorem extIds_push_fun (st : ExtractState) (name : String) (line : Nat)
    (ps : List ParameterInfo) (rt : Option String) :
    ExtIds st ⟨st.idCounter + 1,
      st.functions ++ [⟨st.idCounter, name, line, ps, rt⟩], st.classes⟩ := by
  refine ⟨Nat.le_succ _, ?_⟩
  simp only [allIds, List.map_append, List.map_cons, List.map_nil]
  have harith : st.idCounter + 1 - st.idCounter = 1 := by omega
  rw [harith, List.range'_one]
  exact perm_middle_append _ _ _

/-- Appending one class record whose methods carry the dense range from
the current counter up to the class's own id is an `ExtIds` step. -/
theorem extIds_push_class (st : ExtractState) (k : Nat) (name sig : String)
    (line : Nat) (ms : List FunctionDeclaration)
    (hmap : ms.map (·.id) = List.range' st.idCounter (k - st.idCounter))
    (hle : st.idCounter ≤ k) :
    ExtIds st ⟨k + 1, st.functions, st.classes ++ [⟨k, name, line, sig, ms⟩]⟩ := by
  refine ⟨by show st.idCounter ≤ k + 1; omega, ?_⟩
  simp only [allIds, List.flatMap_append, List.flatMap_cons, List.flatMap_nil,
    List.append_nil]
  rw [hmap]
  have hr2 : List.range' st.idCounter (k + 1 - st.idCounter) =
      List.range' st.idCounter (k - st.idCounter) ++ [k] := by
    have h1 : k + 1 - st.idCounter = (k - st.idCounter) + 1 := by omega
    rw [h1, List.range'_1_concat]
    congr 2
    omega
  rw [hr2]
  simp only [List.append_assoc]
  exact List.Perm.refl _

theorem visitFunction_extIds (ctx : ExtractCtx) (n : Node) (st : ExtractState) :
    ExtIds st (visitFunction ctx n st) := by
  unfold visitFunction
  by_cases h : getNodeName n = ""
  · simp only [h, ne_eq, not_true_eq_false, if_false]
    exact extIds_refl st
  · simp only [ne_eq, h, not_false_eq_true, if_true]
    exact extIds_push_fun st _ _ _ _

theorem classMemberFold_spec (ctx : ExtractCtx) (children : List Node) :
    ∀ (ms : List FunctionDeclaration) (k c : Nat),
      ms.map (·.id) = List.range' c (k - c) → c ≤ k →
      ((children.foldl
          (fun acc child =>
            match classMemberRecord ctx child acc.2 with
            | some r => (acc.1 ++ [r], acc.2 + 1)
            | none => acc)
          (ms, k)).1.map (·.id) =
        List.range' c
          ((children.foldl
            (fun acc child =>
              match classMemberRecord ctx child acc.2 with
              | some r => (acc.1 ++ [r], acc.2 + 1)
              | none => acc)
            (ms, k)).2 - c) ∧
       k ≤ (children.foldl
          (fun acc child =>
            match classMemberRecord ctx child acc.2 with
            | some r => (acc.1 ++ [r], acc.2 + 1)
            | none => acc)
          (ms, k)).2) := by
  induction children with
  | nil => intro ms k c hmap hle; exact ⟨hmap, le_refl k⟩
  | cons child rest ih =>
    intro ms k c hmap hle
    simp only [List.foldl_cons]
    cases hr : classMemberRecord ctx child k with
    | none =>
      simpa only [hr] using ih ms k c hmap hle
    | some r =>
      simp only [hr]
      have hid : r.id = k := by
        unfold classMemberRecord at hr
        cases hcore : classMemberCore ctx child with
        | none => rw [hcore] at hr; exact Option.noConfusion hr
        | some core =>
          rw [hcore] at hr
          simp only [Option.map_some'] at hr
          have h2 := Option.some.inj hr
          rw [← h2]
      have hmap' : (ms ++ [r]).map (·.id) = List.range' c (k + 1 - c) := by
        have : k + 1 - c = (k - c) + 1 := by omega
        rw [this, List.range'_1_concat, ← hmap]
        simp [hid]
        omega
      have := ih (ms ++ [r]) (k + 1) c hmap' (by omega)
      exact ⟨this.1, le_trans (Nat.le_succ k) this.2⟩

theorem visitClassDecl_extIds (ctx : ExtractCtx) (n : Node) (st : ExtractState) :
    ExtIds st (visitClassDecl ctx n st) := by
  unfold visitClassDecl
  by_cases h : getNodeName n = ""
  · simp only [h, ne_eq, not_true_eq_false, if_false]
    exact extIds_refl st
  · simp only [ne_eq, h, not_false_eq_true, if_true]
    cases hb : n.childForFieldName "body" with
    | some body =>
      simp only [hb]
      obtain ⟨hmap, hle⟩ := classMemberFold_spec ctx body.namedChildren []
        st.idCounter st.idCounter (by simp) (le_refl _)
      exact extIds_push_class st _ _ _ _ _ hmap hle
    | none =>
      simp only [hb]
      exact extIds_push_class st st.idCounter _ _ _ [] (by simp) (le_refl _)

theorem extractDeclarations_extIds (env : ParseEnv) (filePath content : String)
    (root : Node) (c : Nat) :
    ExtIds ⟨c, [], []⟩ (extractDeclarations env filePath content root c) := by
  unfold extractDeclarations
  exact traverseTree_rel ExtIds extIds_refl extIds_trans _ _
    (visitFunction_extIds _) (visitClassDecl_extIds _) root _

/-- Every id occurring in a `FileDeclaration`: function record ids
followed by, for each class, its method ids and then the class id. -/
def fileIds (fd : FileDeclaration) : List Nat :=
  fd.functions.map (·.id) ++
    fd.classes.flatMap (fun cl => cl.methods.map (·.id) ++ [cl.id])

theorem parseFile_ids (env : ParseEnv) (p : String) (c : Nat) :
    c ≤ (parseFile env p c).2 ∧
      List.Perm (fileIds (parseFile env p c).1)
        (List.range' c ((parseFile env p c).2 - c)) := by
  unfold parseFile
  dsimp only
  split_ifs with h
  · exact ⟨le_refl _, by simp [fileIds]⟩
  · cases hl : env.loadLanguage (getLanguageForFile p) with
    | error e =>
      simp only [hl]
      exact ⟨le_refl _, by simp [fileIds]⟩
    | ok u =>
      simp only [hl]
      cases hrf : env.readFile p with
      | error e =>
        simp only [hrf]
        exact ⟨le_refl _, by simp [fileIds]⟩
      | ok content =>
        simp only [hrf]
        obtain ⟨h1, h2⟩ :=
          extractDeclarations_extIds env p content (env.parseTree content) c
        exact ⟨h1, h2⟩

theorem parseDirFold_ids (env : ParseEnv) (files : List String) :
    ∀ (fds : List FileDeclaration) (k : Nat), 1 ≤ k →
      List.Perm (fds.flatMap fileIds) (List.range' 1 (k - 1)) →
      (1 ≤ (files.foldl
          (fun (acc : List FileDeclaration × Nat) file =>
            let r := parseFile env file acc.2
            (acc.1 ++ [r.1], r.2)) (fds, k)).2 ∧
        List.Perm
          ((files.foldl
            (fun (acc : List FileDeclaration × Nat) file =>
              let r := parseFile env file acc.2
              (acc.1 ++ [r.1], r.2)) (fds, k)).1.flatMap fileIds)
          (List.range' 1
            ((files.foldl
              (fun (acc : List FileDeclaration × Nat) file =>
                let r := parseFile env file acc.2
                (acc.1 ++ [r.1], r.2)) (fds, k)).2 - 1))) := by
  induction files with
  | nil => intro fds k h1 h2; exact ⟨h1, h2⟩
  | cons f rest ih =>
    intro fds k h1 h2
    simp only [List.foldl_cons]
    obtain ⟨hk, hperm⟩ := parseFile_ids env f k
    refine ih (fds ++ [(parseFile env f k).1]) (parseFile env f k).2
      (le_trans h1 hk) ?_
    rw [List.flatMap_append, List.flatMap_cons, List.flatMap_nil, List.append_nil]
    refine (h2.append hperm).trans ?_
    have hk2 : List.range' k ((parseFile env f k).2 - k) =
        List.range' (1 + (k - 1)) ((parseFile env f k).2 - k) := by
      congr 1
      omega
    have harith : ((parseFile env f k).2 - k) + (k - 1) =
        (parseFile env f k).2 - 1 := by omega
    rw [hk2, List.range'_append_1, harith]

theorem parseDirectory_ids (env : ParseEnv) (ffr : Except String (List String)) :
    List.Perm ((parseDirectory env ffr).flatMap fileIds)
      (List.range' 1 (((parseDirectory env ffr).flatMap fileIds).length)) := by
  cases ffr with
  | error e => simp [parseDirectory]
  | ok files =>
    have h := (parseDirFold_ids env files [] 1 (le_refl _) (by simp)).2
    have hlen : ((parseDirectory env (.ok files)).flatMap fileIds).length =
        ((files.foldl
          (fun (acc : List FileDeclaration × Nat) file =>
            let r := parseFile env file acc.2
            (acc.1 ++ [r.1], r.2)) ([], 1)).2 - 1) := by
      have := h.length_eq
      simpa [parseDirectory, List.length_range'] using this
    rw [hlen]
    exact h

/-- C2: within one top-level run (whether through the exported `parseFile`
wrapper, whose fresh `CodeParser` starts the shared counter at 1, or
through `parseDirectory`, which resets it to 1), the ids of all function,
class, and method records together are a permutation of the dense range
`1, 2, …, N` — so they all come from the single counter, no two records in
the run share an id, and the ids are dense integers starting at 1,
assigned in discovery order of the single tree walk. -/
theorem claim2_ids_dense (env : ParseEnv) (p : String)
    (ffr : Except String (List String)) :
    (List.Perm (fileIds (parseFileTop env p))
        (List.range' 1 ((fileIds (parseFileTop env p)).length)) ∧
      (fileIds (parseFileTop env p)).Nodup) ∧
    (List.Perm ((parseDirectory env ffr).flatMap fileIds)
        (List.range' 1 (((parseDirectory env ffr).flatMap fileIds).length)) ∧
      ((parseDirectory env ffr).flatMap fileIds).Nodup) := by
  constructor
  · have h := (parseFile_ids env p 1).2
    have hlen : (fileIds (parseFileTop env p)).length =
        ((parseFile env p 1).2 - 1) := by
      have := h.length_eq
      simpa [parseFileTop, List.length_range'] using this
    constructor
    · rw [hlen]
      exact h
    · exact (h.symm.nodup (List.nodup_range' _ _))
  · constructor
    · exact parseDirectory_ids env ffr
    · exact ((parseDirectory_ids env ffr).symm.nodup (List.nodup_range' _ _))

/-- C3: in every parsed file, a `FunctionDeclaration` that appears in some
class's `methods` list never also appears in the file's top-level
`functions` list: the walker skips the class body during recursion, so
each member is processed exactly once and receives an id distinct from
every top-level function's id. -/
theorem claim3_method_not_in_functions (env : ParseEnv) (p : String) (c : Nat)
    (cl : ClassDeclaration) (m : FunctionDeclaration)
    (hcl : cl ∈ (parseFile env p c).1.classes) (hm : m ∈ cl.methods) :
    m ∉ (parseFile env p c).1.functions := by
  intro hmem
  have hperm := (parseFile_ids env p c).2
  have hnodup : (fileIds (parseFile env p c).1).Nodup :=
    hperm.symm.nodup (List.nodup_range' _ _)
  rw [fileIds, List.nodup_append] at hnodup
  obtain ⟨-, -, hdisj⟩ := hnodup
  refine hdisj (a := m.id) (List.mem_map_of_mem _ hmem) ?_
  refine List.mem_flatMap.mpr ⟨cl, hcl, ?_⟩
  exact List.mem_append_left _ (List.mem_map_of_mem _ hm)

/-- C1: `parseFile` never raises to its caller: when the extension is
unknown or explicitly excluded (`.json`), or the grammar backend fails to
load, or the file text cannot be read, it returns a `FileDeclaration`
carrying the given file name with empty `functions` and `classes` lists
(and the shared id counter untouched).  In the embedding the function is
total, so no exception crosses the `parseFile`/`parseDirectory` boundary
for any such file-level fault. -/
theorem claim1_parseFile_fault_empty (env : ParseEnv) (filePath : String) (c : Nat)
    (h : getLanguageForFile filePath = "unknown" ∨
      getLanguageForFile filePath = "json" ∨
      (∃ e, env.loadLanguage (getLanguageForFile filePath) = .error e) ∨
      (∃ e, env.readFile filePath = .error e)) :
    parseFile env filePath c = (⟨filePath, [], []⟩, c) := by
  unfold parseFile
  dsimp only
  by_cases hk : getLanguageForFile filePath = "unknown" ∨
      getLanguageForFile filePath = "json"
  · rw [if_pos hk]
  · rw [if_neg hk]
    rcases h with h | h | ⟨e, he⟩ | ⟨e, he⟩
    · exact absurd (Or.inl h) hk
    · exact absurd (Or.inr h) hk
    · rw [he]
    · cases hl : env.loadLanguage (getLanguageForFile filePath) with
      | error e2 => rfl
      | ok u =>
        rw [he]

/-- C4: for every parameter that has both a non-empty explicit syntactic
type annotation and a doc-comment `@param` entry for the same name, the
explicit annotation is the type that survives in the resulting
`ParameterInfo`; the doc-comment type is used only when no explicit
syntactic type was found (the `if` in the conclusion is exactly that
precedence). -/
theorem claim4_explicit_type_wins (content : String) (m : List (String × String))
    (node fp p : Node)
    (hfp : formalParamsOf node = some fp) (hp : p ∈ fp.namedChildren)
    (hname : (paramSyntaxInfo content p).1 ≠ "") :
    ParameterInfo.mk (paramSyntaxInfo content p).1
      (if (paramSyntaxInfo content p).2.1 ≠ "" then (paramSyntaxInfo content p).2.1
       else if mapHas m (paramSyntaxInfo content p).1 = true then
         mapGetD m (paramSyntaxInfo content p).1 ""
       else (paramSyntaxInfo content p).2.1)
      (paramSyntaxInfo content p).2.2 ∈ extractParameters content m node := by
  unfold extractParameters
  rw [hfp]
  refine List.mem_filterMap.mpr ⟨p, hp, ?_⟩
  unfold processParam
  simp only [ne_eq, hname, not_false_eq_true, if_true]
  by_cases hty : (paramSyntaxInfo content p).2.1 = ""
  · by_cases hhas : mapHas m (paramSyntaxInfo content p).1 = true
    · simp [hty, hhas, hname]
    · simp [hty, hhas, hname]
  · simp [hty, hname]

/-! ### The comment-association specification (for C5)

`findClosestCommentSpec` is written from the specification's words: the
candidates are the comments ending strictly before the node's start whose
line distance to the node is non-negative and at most 9; among them the
first one attaining the smallest distance is selected. -/

/-- The candidate comments (with their line distances) for a node start
offset, in comment-map order. -/
def closestCandidates (content : String) (commentMap : List (Nat × String))
    (nodeStart nodeLine : Nat) : List (String × Int) :=
  commentMap.filterMap (fun e =>
    if e.1 < nodeStart then
      let d : Int := (nodeLine : Int) - (getLineNumber content e.1 : Int)
      if 0 ≤ d ∧ d ≤ 9 then some (e.2, d) else none
    else none)

/-- Select the first candidate attaining the minimal distance (ties go to
the earlier candidate), starting from an optional current best. -/
def selectFirstMin : Option (String × Int) → List (String × Int) → Option (String × Int)
  | b, [] => b
  | none, c :: cs => selectFirstMin (some c) cs
  | some b, c :: cs => selectFirstMin (some (if c.2 < b.2 then c else b)) cs

/-- Specification of comment association, phrased as in the spec: the
candidate with the smallest non-negative line distance of at most 9,
ending strictly before the node, ties resolved to the first encountered;
`none` when no candidate is within the bound. -/
def findClosestCommentSpec (content : String) (commentMap : List (Nat × String))
    (nodeStart : Nat) : Option String :=
  if nodeStart = 0 then none
  else
    (selectFirstMin none
      (closestCandidates content commentMap nodeStart
        (getLineNumber content nodeStart))).map Prod.fst

theorem closestLoop_spec (content : String) (nodeStart nodeLine : Nat) :
    ∀ (es : List (Nat × String)) (b : Option (String × Int)),
      es.foldl (closestStep content nodeStart nodeLine)
          (b.map Prod.fst, b.map Prod.snd) =
        ((selectFirstMin b (closestCandidates content es nodeStart nodeLine)).map
          Prod.fst,
         (selectFirstMin b (closestCandidates content es nodeStart nodeLine)).map
          Prod.snd) := by
  intro es
  induction es with
  | nil =>
    intro b
    simp [closestCandidates, selectFirstMin]
  | cons e es ih =>
    intro b
    simp only [List.foldl_cons]
    by_cases h1 : e.1 < nodeStart
    · set d : Int := (nodeLine : Int) - (getLineNumber content e.1 : Int) with hd
      by_cases h2 : 0 ≤ d ∧ d ≤ 9
      · have hcand : closestCandidates content (e :: es) nodeStart nodeLine =
            (e.2, d) :: closestCandidates content es nodeStart nodeLine := by
          unfold closestCandidates
          rw [List.filterMap_cons]
          simp only [h1, if_true, ← hd]
          simp [h2]
        rw [hcand]
        cases b with
        | none =>
          have hstep : closestStep content nodeStart nodeLine
              ((none : Option (String × Int)).map Prod.fst,
               (none : Option (String × Int)).map Prod.snd) e =
              (some e.2, some d) := by
            unfold closestStep
            simp only [h1, if_true, ← hd]
            have : (0 ≤ d ∧ d < 10 ∧ isCloser none d = true) := by
              refine ⟨h2.1, by omega, rfl⟩
            simp [this]
          rw [hstep]
          have := ih (some (e.2, d))
          simpa [selectFirstMin] using this
        | some bv =>
          by_cases h3 : d < bv.2
          · have hstep : closestStep content nodeStart nodeLine
                (some bv.1, some bv.2) e = (some e.2, some d) := by
              unfold closestStep
              simp only [h1, if_true, ← hd]
              have : (0 ≤ d ∧ d < 10 ∧ isCloser (some bv.2) d = true) := by
                refine ⟨h2.1, by omega, by simp [isCloser, h3]⟩
              simp [this]
            have hb : ((some bv : Option (String × Int)).map Prod.fst,
                (some bv : Option (String × Int)).map Prod.snd) =
                (some bv.1, some bv.2) := rfl
            rw [hb, hstep]
            have := ih (some (e.2, d))
            simpa [selectFirstMin, h3] using this
          · have hstep : closestStep content nodeStart nodeLine
                (some bv.1, some bv.2) e = (some bv.1, some bv.2) := by
              unfold closestStep
              simp only [h1, if_true, ← hd]
              have : ¬(0 ≤ d ∧ d < 10 ∧ isCloser (some bv.2) d = true) := by
                rintro ⟨-, -, hc⟩
                simp [isCloser] at hc
                omega
              simp [this]
            have hb : ((some bv : Option (String × Int)).map Prod.fst,
                (some bv : Option (String × Int)).map Prod.snd) =
                (some bv.1, some bv.2) := rfl
            rw [hb, hstep]
            have := ih (some bv)
            have hsel : selectFirstMin (some bv)
                ((e.2, d) :: closestCandidates content es nodeStart nodeLine) =
                selectFirstMin (some bv)
                  (closestCandidates content es nodeStart nodeLine) := by
              simp [selectFirstMin, h3]
            rw [hsel]
            simpa using this
      · have hcand : closestCandidates content (e :: es) nodeStart nodeLine =
            closestCandidates content es nodeStart nodeLine := by
          unfold closestCandidates
          rw [List.filterMap_cons]
          simp only [h1, if_true, ← hd]
          simp [h2]
        have hstep : ∀ acc, closestStep content nodeStart nodeLine acc e = acc := by
          intro acc
          unfold closestStep
          simp only [h1, if_true, ← hd]
          have : ¬(0 ≤ d ∧ d < 10 ∧ isCloser acc.2 d = true) := by
            rintro ⟨ha, hb, -⟩
            exact h2 ⟨ha, by omega⟩
          simp [this]
        rw [hcand, hstep]
        exact ih b
    · have hcand : closestCandidates content (e :: es) nodeStart nodeLine =
          closestCandidates content es nodeStart nodeLine := by
        unfold closestCandidates
        rw [List.filterMap_cons]
        simp [h1]
      have hstep : ∀ acc, closestStep content nodeStart nodeLine acc e = acc := by
        intro acc
        unfold closestStep
        simp [h1]
      rw [hcand, hstep]
      exact ih b

/-- C5: comment association agrees with its specification: the associated
comment is the one ending strictly before the node whose 1-based line
distance is non-negative and at most 9, choosing the smallest distance
with ties resolved to the first encountered, and `none` when no comment
lies within the bound — so, concretely, a comment at line distance 3 is
found and the same comment moved to line distance 12 is not. -/
theorem claim5_findClosestComment_spec :
    (∀ (content : String) (commentMap : List (Nat × String)) (nodeStart : Nat),
      findClosestComment content commentMap nodeStart =
        findClosestCommentSpec content commentMap nodeStart) ∧
    findClosestComment "//c\n\n\nf" [(3, "//c")] 6 = some "//c" ∧
    findClosestComment "//c\n\n\n\n\n\n\n\n\n\n\n\nf" [(3, "//c")] 15 = none := by
  refine ⟨?_, by decide, by decide⟩
  intro content commentMap nodeStart
  unfold findClosestComment findClosestCommentSpec
  by_cases h0 : nodeStart = 0
  · simp [h0]
  · simp only [h0, if_false]
    have := closestLoop_spec content nodeStart (getLineNumber content nodeStart)
      commentMap none
    have h1 := congrArg Prod.fst this
    simpa using h1

/-- C6 (amended): an `interface_declaration` node triggers no visitor
callback at all — its processing was removed from `traverseTree`, so the
walker just recurses generically into its children and no
`ClassDeclaration` record is produced for it (class and enum declaration
nodes do trigger the class callback). -/
theorem claim6_interface_generic {S : Type} (visitF visitC : Node → S → S)
    (n : Node) (st : S) (h : n.type = "interface_declaration") :
    traverseTree visitF visitC n st = traverseList visitF visitC n.children st := by
  rw [traverseTree]
  simp [h]

/-- C7: a destructured object-pattern parameter yields a `ParameterInfo`
whose name is the pattern text wrapped in braces and whose type is the
fixed literal `"object"`; an array-pattern parameter yields the
bracket-wrapped text and type `"array"`; neither is optional and the
doc-comment map cannot override either type. -/
theorem claim7_destructured_params (content : String)
    (m : List (String × String)) (p q : Node)
    (ho : p.type = "object_pattern") (ha : q.type = "array_pattern") :
    processParam content m p =
      some ⟨"\x7b" ++ p.text ++ "\x7d", "object", false⟩ ∧
    processParam content m q =
      some ⟨"[" ++ q.text ++ "]", "array", false⟩ := by
  constructor
  · unfold processParam paramSyntaxInfo
    rw [ho]
    have hne : ("\x7b" ++ p.text ++ "\x7d") ≠ "" := by
      intro hcontra
      have := congrArg String.data hcontra
      simp [String.data_append] at this
    simp [hne]
  · unfold processParam paramSyntaxInfo
    rw [ha]
    have hne : ("[" ++ q.text ++ "]") ≠ "" := by
      intro hcontra
      have := congrArg String.data hcontra
      simp [String.data_append] at this
    simp [hne]

/-! ### Reported nodes (for C10)

`reportedNodes` instruments the extraction: it runs the very same
`traverseTree` dispatch, but each visitor records the node a record is
pushed for instead of the record itself — `reportF` mirrors
`visitFunction` (a record is pushed exactly when the resolved name is
non-empty) and `reportC` mirrors `visitClassDecl` (the member records come
exactly from the direct named children of the body for which
`classMemberCore` produces a member, then the class node itself).  So a
node is reported — contributes a `FunctionDeclaration` to
`FileDeclaration.functions`, a member to some `ClassDeclaration.methods`,
or a `ClassDeclaration` — precisely when it occurs in this list. -/

mutual

/-- All nodes of the subtree rooted at `n` (the node itself first). -/
def subtreeNodes (n : Node) : List Node :=
  n :: subtreeList n.children
termination_by sizeOf n
decreasing_by exact n.sizeOf_children_lt

/-- All nodes of the subtrees of a list of nodes. -/
def subtreeList : List Node → List Node
  | [] => []
  | c :: cs => subtreeNodes c ++ subtreeList cs
termination_by l => sizeOf l

end

theorem mem_subtreeList {d : Node} : ∀ {l : List Node},
    d ∈ subtreeList l ↔ ∃ c ∈ l, d ∈ subtreeNodes c := by
  intro l
  induction l with
  | nil => simp [subtreeList]
  | cons c cs ih =>
    rw [subtreeList]
    simp only [List.mem_append, ih, List.mem_cons]
    constructor
    · rintro (h | ⟨c', hc', hd⟩)
      · exact ⟨c, Or.inl rfl, h⟩
      · exact ⟨c', Or.inr hc', hd⟩
    · rintro ⟨c', hc' | hc', hd⟩
      · subst hc'
        exact Or.inl hd
      · exact Or.inr ⟨c', hc', hd⟩

theorem mem_subtree_self (n : Node) : n ∈ subtreeNodes n := by
  rw [subtreeNodes]
  exact List.mem_cons_self _ _

theorem mem_subtree_of_child {c n d : Node} (hc : c ∈ n.children)
    (hd : d ∈ subtreeNodes c) : d ∈ subtreeNodes n := by
  rw [subtreeNodes]
  exact List.mem_cons_of_mem _ (mem_subtreeList.mpr ⟨c, hc, hd⟩)

/-- The function-visitor instrumentation: record the node whenever
`visitFunction` would push a record (non-empty resolved name). -/
def reportF (n : Node) (l : List Node) : List Node :=
  if getNodeName n ≠ "" then l ++ [n] else l

/-- The class-visitor instrumentation: whenever `visitClassDecl` would
push a class record, record the direct named children of the body that
yield member records, then the class node itself. -/
def reportC (ctx : ExtractCtx) (n : Node) (l : List Node) : List Node :=
  if getNodeName n ≠ "" then
    l ++ ((match n.childForFieldName "body" with
           | some body =>
             body.namedChildren.filter (fun c => (classMemberCore ctx c).isSome)
           | none => []) ++ [n])
  else l

/-- The nodes for which the extraction of the tree rooted at `root`
pushes a record (top-level function, class member, or class). -/
def reportedNodes (ctx : ExtractCtx) (root : Node) : List Node :=
  traverseTree reportF (reportC ctx) root []

theorem mem_reportF {n d : Node} {l : List Node} (h : d ∈ reportF n l) :
    d ∈ l ∨ d = n := by
  unfold reportF at h
  split_ifs at h
  · rcases List.mem_append.mp h with h | h
    · exact Or.inl h
    · exact Or.inr (List.mem_singleton.mp h)
  · exact Or.inl h

theorem mem_reportC {ctx : ExtractCtx} {n d : Node} {l : List Node}
    (h : d ∈ reportC ctx n l) : d ∈ l ∨ d ∈ subtreeNodes n := by
  unfold reportC at h
  split_ifs at h
  · rcases List.mem_append.mp h with h | h
    · exact Or.inl h
    · refine Or.inr ?_
      rcases List.mem_append.mp h with h | h
      · cases hb : n.childForFieldName "body" with
        | none => simp only [hb] at h; simp at h
        | some body =>
          simp only [hb] at h
          have hbody : body ∈ n.children :=
            List.mem_of_find?_eq_some hb
          have hd : d ∈ body.children :=
            List.mem_of_mem_filter (List.mem_of_mem_filter h)
          exact mem_subtree_of_child hbody
            (mem_subtree_of_child hd (mem_subtree_self d))
      · rw [List.mem_singleton.mp h]
        exact mem_subtree_self n
  · exact Or.inl h

theorem mem_traverseList_reported (ctx : ExtractCtx) (l : List Node)
    (hl : ∀ c ∈ l, ∀ acc (d : Node),
      d ∈ traverseTree reportF (reportC ctx) c acc →
        d ∈ acc ∨ d ∈ subtreeNodes c) :
    ∀ acc (d : Node), d ∈ traverseList reportF (reportC ctx) l acc →
      d ∈ acc ∨ ∃ c ∈ l, d ∈ subtreeNodes c := by
  induction l with
  | nil =>
    intro acc d h
    rw [traverseList] at h
    exact Or.inl h
  | cons c cs ih =>
    intro acc d h
    rw [traverseList] at h
    rcases ih (fun m hm => hl m (List.mem_cons_of_mem c hm)) _ d h with h' | ⟨c', hc', hd⟩
    · rcases hl c (List.mem_cons_self c cs) acc d h' with h'' | h''
      · exact Or.inl h''
      · exact Or.inr ⟨c, List.mem_cons_self c cs, h''⟩
    · exact Or.inr ⟨c', List.mem_cons_of_mem c hc', hd⟩

theorem mem_traverse_reported_aux (ctx : ExtractCtx) :
    ∀ (k : Nat) (n : Node), sizeOf n ≤ k → ∀ acc (d : Node),
      d ∈ traverseTree reportF (reportC ctx) n acc →
        d ∈ acc ∨ d ∈ subtreeNodes n := by
  intro k
  induction k with
  | zero =>
    intro n h
    cases n with
    | mk t b f s e tx cs =>
      simp only [Node.mk.sizeOf_spec] at h
      omega
  | succ k ih =>
    intro n hn acc d hd
    have hchild : ∀ c ∈ n.children, ∀ acc (d : Node),
        d ∈ traverseTree reportF (reportC ctx) c acc →
          d ∈ acc ∨ d ∈ subtreeNodes c := by
      intro c hc
      refine ih c ?_
      have := Node.sizeOf_lt_of_mem_children hc
      omega
    have hlist := mem_traverseList_reported ctx n.children hchild
    have hlist' := mem_traverseList_reported ctx
      (n.children.eraseP (fun c => c.field == some "body"))
      (fun c hc => hchild c (List.mem_of_mem_eraseP hc))
    have hfold : ∀ (f : List Node → Node → List Node) (ms : List Node),
        (∀ acc, ∀ m ∈ ms, ∀ (d : Node), d ∈ f acc m → d ∈ acc ∨ d ∈ subtreeNodes n) →
        ∀ acc (d : Node), d ∈ ms.foldl f acc → d ∈ acc ∨ d ∈ subtreeNodes n := by
      intro f ms
      induction ms with
      | nil => intro _ acc d h; exact Or.inl h
      | cons m ms ihm =>
        intro hf acc d h
        rcases ihm (fun acc' m' hm' => hf acc' m' (List.mem_cons_of_mem m hm'))
          (f acc m) d h with h' | h'
        · exact hf acc m (List.mem_cons_self m ms) d h'
        · exact Or.inr h'
    have hnamed : ∀ m ∈ n.namedChildren, m ∈ subtreeNodes n := by
      intro m hm
      exact mem_subtree_of_child (List.mem_of_mem_filter hm) (mem_subtree_self m)
    rw [traverseTree] at hd
    split_ifs at hd with h1 h2 h3 h4 h5 h6
    · rcases hlist _ d hd with h' | ⟨c, hc, hsub⟩
      · rcases mem_reportF h' with h'' | rfl
        · exact Or.inl h''
        · exact Or.inr (mem_subtree_self d)
      · exact Or.inr (mem_subtree_of_child hc hsub)
    · cases hb : n.childForFieldName "body" with
      | some body =>
        simp only [hb] at hd
        rcases hlist' _ d hd with h' | ⟨c, hc, hsub⟩
        · rcases mem_reportC h' with h'' | h''
          · exact Or.inl h''
          · exact Or.inr h''
        · exact Or.inr
            (mem_subtree_of_child (List.mem_of_mem_eraseP hc) hsub)
      | none =>
        simp only [hb] at hd
        rcases hlist _ d hd with h' | ⟨c, hc, hsub⟩
        · rcases mem_reportC h' with h'' | h''
          · exact Or.inl h''
          · exact Or.inr h''
        · exact Or.inr (mem_subtree_of_child hc hsub)
    · rcases hlist _ d hd with h' | ⟨c, hc, hsub⟩
      · refine hfold _ n.namedChildren ?_ acc d h'
        intro acc' m hm d' hd'
        by_cases hm' : m.type = "variable_declarator"
        · rw [if_pos hm'] at hd'
          cases hv : m.lastNamedChild with
          | some v =>
            simp only [hv] at hd'
            by_cases hvt : v.type = "arrow_function" ∨ v.type = "function"
            · rw [if_pos hvt] at hd'
              rcases mem_reportF hd' with h'' | rfl
              · exact Or.inl h''
              · exact Or.inr (hnamed d' hm)
            · rw [if_neg hvt] at hd'
              exact Or.inl hd'
          | none =>
            simp only [hv] at hd'
            exact Or.inl hd'
        · rw [if_neg hm'] at hd'
          exact Or.inl hd'
      · exact Or.inr (mem_subtree_of_child hc hsub)
    · rcases hlist _ d hd with h' | ⟨c, hc, hsub⟩
      · have : d ∈ acc ∨ d = n := by
          cases hv : n.childForFieldName "value" with
          | some t =>
            simp only [hv] at h'
            by_cases hvt : t.type = "function_type" ∨ t.type = "arrow_function"
            · rw [if_pos hvt] at h'
              exact mem_reportF h'
            · rw [if_neg hvt] at h'
              exact Or.inl h'
          | none =>
            simp only [hv] at h'
            exact Or.inl h'
        rcases this with h'' | rfl
        · exact Or.inl h''
        · exact Or.inr (mem_subtree_self d)
      · exact Or.inr (mem_subtree_of_child hc hsub)
    · rcases hlist _ d hd with h' | ⟨c, hc, hsub⟩
      · exact Or.inl h'
      · exact Or.inr (mem_subtree_of_child hc hsub)
    · rcases hlist _ d hd with h' | ⟨c, hc, hsub⟩
      · rcases mem_reportC h' with h'' | h''
        · exact Or.inl h''
        · exact Or.inr h''
      · exact Or.inr (mem_subtree_of_child hc hsub)
    · rcases hlist _ d hd with h' | ⟨c, hc, hsub⟩
      · exact Or.inl h'
      · exact Or.inr (mem_subtree_of_child hc hsub)

/-! ### The record-to-reported-nodes bridge

`traverseTree_pair` is a generic simulation lemma: the dispatcher takes
the same branches on both of two paired traversals (its dispatch depends
only on the node), so a relation preserved by the paired visitors is
preserved by the paired traversals.  Instantiated with the real extraction
visitors on one side and the reporting visitors on the other, it shows
that the names of all records produced by an extraction are exactly (as a
multiset) the names of the reported nodes — so `reportedNodes` faithfully
stands for "the nodes a record is pushed for". -/

theorem foldl_pair {S T : Type} (R : S → T → Prop) (f : S → Node → S)
    (g : T → Node → T) (l : List Node)
    (hstep : ∀ s t m, m ∈ l → R s t → R (f s m) (g t m)) :
    ∀ s t, R s t → R (l.foldl f s) (l.foldl g t) := by
  induction l with
  | nil => intro s t h; exact h
  | cons m ms ih =>
    intro s t h
    exact ih (fun s' t' m' hm' => hstep s' t' m' (List.mem_cons_of_mem m hm'))
      (f s m) (g t m) (hstep s t m (List.mem_cons_self m ms) h)

theorem traverseList_pair {S T : Type} (R : S → T → Prop)
    (vF vC : Node → S → S) (wF wC : Node → T → T) (l : List Node)
    (hl : ∀ n ∈ l, ∀ s t, R s t →
      R (traverseTree vF vC n s) (traverseTree wF wC n t)) :
    ∀ s t, R s t → R (traverseList vF vC l s) (traverseList wF wC l t) := by
  induction l with
  | nil =>
    intro s t h
    rw [traverseList, traverseList]
    exact h
  | cons n ns ih =>
    intro s t h
    rw [traverseList, traverseList]
    exact ih (fun m hm => hl m (List.mem_cons_of_mem n hm)) _ _
      (hl n (List.mem_cons_self n ns) s t h)

theorem traverseTree_pair_aux {S T : Type} (R : S → T → Prop)
    (vF vC : Node → S → S) (wF wC : Node → T → T)
    (hF : ∀ n s t, R s t → R (vF n s) (wF n t))
    (hC : ∀ n s t, R s t → R (vC n s) (wC n t)) :
    ∀ (k : Nat) (n : Node), sizeOf n ≤ k → ∀ s t, R s t →
      R (traverseTree vF vC n s) (traverseTree wF wC n t) := by
  intro k
  induction k with
  | zero =>
    intro n h
    cases n with
    | mk tt b f s e tx cs =>
      simp only [Node.mk.sizeOf_spec] at h
      omega
  | succ k ih =>
    intro n hn s t hst
    have hchild : ∀ c ∈ n.children, ∀ s t, R s t →
        R (traverseTree vF vC c s) (traverseTree wF wC c t) := by
      intro c hc
      refine ih c ?_
      have := Node.sizeOf_lt_of_mem_children hc
      omega
    have hlist := traverseList_pair R vF vC wF wC n.children hchild
    have hlist' := traverseList_pair R vF vC wF wC
      (n.children.eraseP (fun c => c.field == some "body"))
      (fun c hc => hchild c (List.mem_of_mem_eraseP hc))
    rw [traverseTree, traverseTree]
    split_ifs with h1 h2 h3 h4 h5 h6
    · exact hlist _ _ (hF n s t hst)
    · cases hb : n.childForFieldName "body" with
      | some body =>
        simp only [hb]
        exact hlist' _ _ (hC n s t hst)
      | none =>
        simp only [hb]
        exact hlist _ _ (hC n s t hst)
    · refine hlist _ _ ?_
      refine foldl_pair R _ _ n.namedChildren ?_ s t hst
      intro s' t' m _ h'
      by_cases hm : m.type = "variable_declarator"
      · simp only [hm, if_true]
        cases hv : m.lastNamedChild with
        | some v =>
          by_cases hvt : v.type = "arrow_function" ∨ v.type = "function"
          · simp only [hvt, if_true]
            exact hF m s' t' h'
          · simp only [hvt, if_false]
            exact h'
        | none => exact h'
      · simp only [hm, if_false]
        exact h'
    · refine hlist _ _ ?_
      cases hv : n.childForFieldName "value" with
      | some ty =>
        simp only [hv]
        by_cases hvt : ty.type = "function_type" ∨ ty.type = "arrow_function"
        · simp only [hvt, if_true]
          exact hF n s t hst
        · simp only [hvt, if_false]
          exact hst
      | none =>
        simp only [hv]
        exact hst
    · exact hlist _ _ hst
    · exact hlist _ _ (hC n s t hst)
    · exact hlist _ _ hst

/-- A relation preserved by paired visitors is preserved by the paired
traversals (the dispatcher takes the same branches on both sides). -/
theorem traverseTree_pair {S T : Type} (R : S → T → Prop)
    (vF vC : Node → S → S) (wF wC : Node → T → T)
    (hF : ∀ n s t, R s t → R (vF n s) (wF n t))
    (hC : ∀ n s t, R s t → R (vC n s) (wC n t))
    (n : Node) (s : S) (t : T) (hst : R s t) :
    R (traverseTree vF vC n s) (traverseTree wF wC n t) :=
  traverseTree_pair_aux R vF vC wF wC hF hC (sizeOf n) n (le_refl _) s t hst

/-- Every name occurring in an extraction state: function record names
followed by, for each class, its method names and then the class name. -/
def allNames (st : ExtractState) : List String :=
  st.functions.map (·.functionName) ++
    st.classes.flatMap (fun cl => cl.methods.map (·.functionName) ++ [cl.className])

theorem classMemberCore_name (ctx : ExtractCtx) (child : Node)
    (core : String × List ParameterInfo × Option String)
    (h : classMemberCore ctx child = some core) : core.1 = getNodeName child := by
  unfold classMemberCore at h
  dsimp only at h
  repeat' split at h
  all_goals
    first
    | exact Option.noConfusion h
    | (injection h with h2; rw [← h2])

theorem classMemberFold_names (ctx : ExtractCtx) (children : List Node) :
    ∀ (ms : List FunctionDeclaration) (k : Nat),
      ((children.foldl
          (fun acc child =>
            match classMemberRecord ctx child acc.2 with
            | some r => (acc.1 ++ [r], acc.2 + 1)
            | none => acc)
          (ms, k)).1.map (·.functionName)) =
        ms.map (·.functionName) ++
          (children.filter (fun c => (classMemberCore ctx c).isSome)).map getNodeName := by
  induction children with
  | nil =>
    intro ms k
    simp
  | cons child rest ih =>
    intro ms k
    simp only [List.foldl_cons, List.filter_cons]
    cases hcore : classMemberCore ctx child with
    | none =>
      have hr : classMemberRecord ctx child k = none := by
        unfold classMemberRecord
        rw [hcore]
        rfl
      simp only [hr, hcore, Option.isSome_none, Bool.false_eq_true, if_false]
      exact ih ms k
    | some core =>
      have hr : classMemberRecord ctx child k =
          some ⟨k, core.1, getLineNumber ctx.content child.startPosition,
            core.2.1, core.2.2⟩ := by
        unfold classMemberRecord
        rw [hcore]
        rfl
      simp only [hr, hcore, Option.isSome_some, if_true]
      rw [ih (ms ++ [_]) (k + 1)]
      simp [classMemberCore_name ctx child core hcore]

theorem visitFunction_names (ctx : ExtractCtx) (base : List String) (n : Node)
    (s : ExtractState) (t : List Node)
    (h : List.Perm (allNames s) (base ++ t.map getNodeName)) :
    List.Perm (allNames (visitFunction ctx n s))
      (base ++ (reportF n t).map getNodeName) := by
  unfold visitFunction reportF
  by_cases hname : getNodeName n = ""
  · simp only [hname, ne_eq, not_true_eq_false, if_false]
    exact h
  · simp only [ne_eq, hname, not_false_eq_true, if_true]
    simp only [allNames, List.map_append, List.map_cons, List.map_nil] at h ⊢
    refine (perm_middle_append _ _ _).trans ?_
    refine ((h.append_right _).trans ?_)
    simp [List.append_assoc]

theorem visitClassDecl_names (ctx : ExtractCtx) (base : List String) (n : Node)
    (s : ExtractState) (t : List Node)
    (h : List.Perm (allNames s) (base ++ t.map getNodeName)) :
    List.Perm (allNames (visitClassDecl ctx n s))
      (base ++ (reportC ctx n t).map getNodeName) := by
  unfold visitClassDecl reportC
  by_cases hname : getNodeName n = ""
  · simp only [hname, ne_eq, not_true_eq_false, if_false]
    exact h
  · simp only [ne_eq, hname, not_false_eq_true, if_true]
    cases hb : n.childForFieldName "body" with
    | some body =>
      simp only [hb]
      have h1 := classMemberFold_names ctx body.namedChildren [] s.idCounter
      simp only [allNames, List.flatMap_append, List.flatMap_cons, List.flatMap_nil,
        List.append_nil, List.map_append] at h ⊢
      rw [h1]
      simp only [List.map_nil, List.nil_append]
      rw [← List.append_assoc, ← List.append_assoc]
      refine ((h.append_right _).append_right _).trans ?_
      simp [List.append_assoc]
    | none =>
      simp only [hb]
      simp only [allNames, List.flatMap_append, List.flatMap_cons, List.flatMap_nil,
        List.append_nil, List.map_append] at h ⊢
      simp only [List.map_nil, List.nil_append]
      rw [← List.append_assoc]
      refine ((h.append_right _)).trans ?_
      simp [List.append_assoc]

/-- The bridge: the names of all records produced by one extraction are,
as a multiset, exactly the names of the reported nodes — `reportedNodes`
collects precisely the nodes a record is pushed for. -/
theorem extract_names_eq_reported (ctx : ExtractCtx) (root : Node) (c : Nat) :
    List.Perm
      (allNames (traverseTree (visitFunction ctx) (visitClassDecl ctx) root
        ⟨c, [], []⟩))
      ((reportedNodes ctx root).map getNodeName) := by
  unfold reportedNodes
  have := traverseTree_pair
    (fun (s : ExtractState) (t : List Node) =>
      List.Perm (allNames s) ([] ++ t.map getNodeName))
    (visitFunction ctx) (visitClassDecl ctx) reportF (reportC ctx)
    (fun n s t h => visitFunction_names ctx [] n s t h)
    (fun n s t h => visitClassDecl_names ctx [] n s t h)
    root ⟨c, [], []⟩ [] (by simp [allNames])
  simpa using this

/-- C10: for a class node with a member-list body, a node `d` inside the
body that is neither the class node itself, nor a direct named child of
the body recognized as a member (`method_definition`, function-valued
`property_definition`, `method_signature`, `property_signature`), nor
reachable in any non-body child's subtree, is never reported at all — it
yields no entry in `FileDeclaration.functions` and no entry in any
`ClassDeclaration.methods` list (`extract_names_eq_reported` ties
`reportedNodes` to the records), because traversal skips the body entirely
and member extraction inspects only the body's direct named children. -/
theorem claim10_nested_not_reported (ctx : ExtractCtx) (n b d : Node)
    (hty : n.type = "class_declaration")
    (hb : n.childForFieldName "body" = some b)
    (hne : d ≠ n)
    (hmem : ¬(d ∈ b.namedChildren ∧ (classMemberCore ctx d).isSome = true))
    (hout : ∀ c ∈ n.children.eraseP (fun c => c.field == some "body"),
      d ∉ subtreeNodes c) :
    d ∉ reportedNodes ctx n := by
  intro hd
  unfold reportedNodes at hd
  rw [traverseTree] at hd
  have hnotfun : ¬(n.type = "function_declaration" ∨ n.type = "method_definition" ∨
      n.type = "generator_function_declaration" ∨ n.type = "function") := by
    simp [hty]
  rw [if_neg hnotfun, if_pos hty] at hd
  simp only [hb] at hd
  have hchild : ∀ c ∈ n.children.eraseP (fun c => c.field == some "body"),
      ∀ acc (d' : Node), d' ∈ traverseTree reportF (reportC ctx) c acc →
        d' ∈ acc ∨ d' ∈ subtreeNodes c := by
    intro c _ acc d' hd'
    exact mem_traverse_reported_aux ctx (sizeOf c) c (le_refl _) acc d' hd'
  rcases mem_traverseList_reported ctx _ hchild _ d hd with h' | ⟨c, hc, hsub⟩
  · unfold reportC at h'
    split_ifs at h' with hname
    · rcases List.mem_append.mp h' with h'' | h''
      · simp at h''
      · rcases List.mem_append.mp h'' with h'' | h''
        · rw [hb] at h''
          rcases List.mem_filter.mp h'' with ⟨hmem1, hmem2⟩
          exact hmem ⟨hmem1, hmem2⟩
        · exact hne (List.mem_singleton.mp h'')
    · simp at h'
  · exact hout c hc hsub

/-- C9 (amended): the whole-file TypeScript type-info map is applied
keyed by the bare declaration name alone: a top-level function named `nm`
and a class-body method named `nm` both have their parameters and return
type enhanced through `applyTypeInfo ctx nm` — the single map entry for
that name — so one declaration's annotations can overwrite the parameter
types of a different same-named declaration.  (Interface declarations are
not traversed, so their members receive nothing; see the
counterexample.) -/
theorem claim9_name_keyed_typeinfo (ctx : ExtractCtx) (st : ExtractState)
    (fn mem : Node) (nm : String) (c : Nat)
    (hfn : getNodeName fn = nm) (hnm : nm ≠ "")
    (hmem : mem.type = "method_definition") (hmname : getNodeName mem = nm) :
    visitFunction ctx fn st =
      { st with
        idCounter := st.idCounter + 1,
        functions := st.functions ++
          [⟨st.idCounter, nm, getLineNumber ctx.content fn.startPosition,
            (applyTypeInfo ctx nm
              (extractParameters ctx.content (docParamsFor ctx fn) fn)
              (extractReturnType ctx fn (jsDocFor ctx fn))).1,
            (applyTypeInfo ctx nm
              (extractParameters ctx.content (docParamsFor ctx fn) fn)
              (extractReturnType ctx fn (jsDocFor ctx fn))).2⟩] } ∧
    classMemberRecord ctx mem c =
      some ⟨c, nm, getLineNumber ctx.content mem.startPosition,
        (applyTypeInfo ctx nm
          (extractParameters ctx.content (docParamsFor ctx mem) mem)
          (extractReturnType ctx mem (jsDocFor ctx mem))).1,
        (applyTypeInfo ctx nm
          (extractParameters ctx.content (docParamsFor ctx mem) mem)
          (extractReturnType ctx mem (jsDocFor ctx mem))).2⟩ := by
  constructor
  · unfold visitFunction
    rw [hfn]
    simp [hnm]
  · unfold classMemberRecord classMemberCore
    rw [hmem]
    simp only [if_pos rfl]
    rw [hmname]
    simp [hnm]

/-! ### Concrete inputs

Concrete trees and environments used by the counterexamples and witnesses
below.  `tsTree` is the tree of a TypeScript file declaring a top-level
function `f(x)`, a class `C` with a method `f(x)`, and an interface `I`
with a method signature `f(x)`; `tsEnv` supplies a whole-file type-info
map with the single entry `f : (x : number) → string`. -/

/-- A `formal_parameters` node holding one plain identifier parameter. -/
def paramListNode (nm : String) : Node :=
  .mk "formal_parameters" true (some "parameters") 0 0 ""
    [.mk "identifier" true none 0 0 nm []]

/-- The tree of the function declaration `function f(x) …`. -/
def fnDeclNode : Node :=
  .mk "function_declaration" true none 0 0 ""
    [.mk "identifier" true (some "name") 0 0 "f" [], paramListNode "x"]

/-- The tree of the method definition `f(x) …` inside a class body. -/
def methodDefNode : Node :=
  .mk "method_definition" true none 0 0 ""
    [.mk "property_identifier" true (some "name") 0 0 "f" [], paramListNode "x"]

/-- The tree of the class declaration `class C { f(x) … }`. -/
def classDeclNode : Node :=
  .mk "class_declaration" true none 0 0 ""
    [.mk "type_identifier" true (some "name") 0 0 "C" [],
     .mk "class_body" true (some "body") 0 0 "" [methodDefNode]]

/-- The tree of the interface method signature `f(x): …`. -/
def ifaceMemberNode : Node :=
  .mk "method_signature" true none 0 0 ""
    [.mk "property_identifier" true (some "name") 0 0 "f" [], paramListNode "x",
     .mk "type_annotation" true (some "type") 0 0 "" []]

/-- The tree of the interface declaration `interface I { f(x): … }`. -/
def ifaceDeclNode : Node :=
  .mk "interface_declaration" true none 0 0 ""
    [.mk "type_identifier" true (some "name") 0 0 "I" [],
     .mk "interface_body" true (some "body") 0 0 "" [ifaceMemberNode]]

/-- A TypeScript file's tree: function `f`, class `C` with method `f`,
interface `I` with member `f`. -/
def tsTree : Node :=
  .mk "program" true none 0 0 "" [fnDeclNode, classDeclNode, ifaceDeclNode]

/-- The environment serving `tsTree` with the type-info entry
`f : (x : number) → string` (as the whole-file regex pre-scan would build
from a single annotated declaration named `f`). -/
def tsEnv : ParseEnv :=
  { loadLanguage := fun _ => .ok ()
    readFile := fun _ => .ok ""
    parseTree := fun _ => tsTree
    regexComments := fun _ => []
    typeInfoOf := fun _ => [("f", ⟨[("x", "number")], "string"⟩)]
    docParams := fun _ => []
    docReturns := fun _ => none }

/-- Full evaluation of the parse of the TypeScript file served by
`tsEnv`: the function and the method are enhanced through the type-info
entry for `f`; the interface contributes nothing; the counter ends at 4. -/
theorem tsParse_eq :
    parseFile tsEnv "a.ts" 1 =
      (⟨"a.ts",
        [⟨1, "f", 1, [⟨"x", "number", false⟩], some "string"⟩],
        [⟨3, "C", 1, "", [⟨2, "f", 1, [⟨"x", "number", false⟩], some "string"⟩]⟩]⟩,
       4) := by
  simp [parseFile, extractDeclarations, tsEnv, tsTree, fnDeclNode,
    classDeclNode, methodDefNode, ifaceDeclNode, ifaceMemberNode, paramListNode,
    traverseTree, traverseList, processCommentNode, processCommentList,
    buildCommentMap, visitFunction, visitClassDecl, classMemberRecord,
    classMemberCore, getNodeName, getClassSignature, getLanguageForFile, extname,
    lowerStr, splitOnChar, strEndsWith, strContains, containsSub, strTrim,
    Node.type, Node.children, Node.childForFieldName, Node.field, Node.text,
    Node.named, Node.startPosition, Node.endPosition, Node.firstNamedChild,
    Node.lastNamedChild, Node.namedChildren, getLineNumber, jsDocFor,
    docParamsFor, findClosestComment, extractParameters, formalParamsOf,
    paramSyntaxInfo, processParam, extractReturnType, extractReturnTypeSyn,
    extractTypeFromNode, applyTypeInfo, jsTruthyStr, mapFind, mapSet, mapHas,
    mapGetD, substring]

/-- C9 (counterexample): parsing the TypeScript file whose tree is
`tsTree` — a top-level function `f`, a class method `f`, and an interface
member `f`, with the type-info map holding the entry for `f` — enhances
the function and the class method with the entry, but produces no record
at all for the interface member (the interface is not traversed), so it is
false that the three declarations "all receive the single map entry". -/
theorem claim9_counterexample :
    parseFileTop tsEnv "a.ts" =
      ⟨"a.ts",
        [⟨1, "f", 1, [⟨"x", "number", false⟩], some "string"⟩],
        [⟨3, "C", 1, "", [⟨2, "f", 1, [⟨"x", "number", false⟩], some "string"⟩]⟩]⟩ := by
  rw [parseFileTop, tsParse_eq]

/-- C6 (counterexample): parsing the same TypeScript file, whose tree
contains the `interface_declaration` node `ifaceDeclNode` (with a method
signature member), yields no `ClassDeclaration` record for the interface —
the only class record is the one for `class C` — so it is false that every
interface declaration node triggers the class callback and produces a
`ClassDeclaration`. -/
theorem claim6_counterexample :
    (parseFileTop tsEnv "a.ts").classes.map (·.className) = ["C"] ∧
    (parseFileTop tsEnv "a.ts").functions.map (·.functionName) = ["f"] := by
  rw [parseFileTop, tsParse_eq]
  exact ⟨rfl, rfl⟩

/-! ### The legacy Dependency Inference Engine (for C8)

The repository's files under `src/` do not contain the legacy dependency
scan itself — only its tests, the `--dependencies` command-line flag, and
the README mention `dependOn` — so the engine is modelled from the spec
(§4.7): locate the first textual match of one of several fixed lexical
patterns approximating function A's declaration start; from there scan
forward counting brace nesting to delimit an approximate body span
(falling back to end of file when unbalanced); then record B's id in A's
dependency set exactly when B's name followed by an opening parenthesis
occurs in that span, a purely textual test that also matches occurrences
inside string literals and comments. -/

/-- Modelled from the spec: the legacy-mode `FunctionDeclaration` record
(§3): id, name, line, and owning file. -/
structure LegacyFunctionDeclaration where
  id : Nat
  functionName : String
  lineNo : Nat
  fileName : String
deriving Repr, DecidableEq

/-- First index at which `pat` occurs in the character list, starting the
count at `i`. -/
def strIndexOfAux (pat : List Char) : List Char → Nat → Option Nat
  | s, i =>
    if pat.isPrefixOf s then some i
    else
      match s with
      | [] => none
      | _ :: t => strIndexOfAux pat t (i + 1)

/-- Model of `s.indexOf(pat)` (as `Option`). -/
def strIndexOf (s pat : String) : Option Nat :=
  strIndexOfAux pat.data s.data 0

/-- The opening brace character. -/
def lbrace : Char := Char.ofNat 123

/-- The closing brace character. -/
def rbrace : Char := Char.ofNat 125

/-- Modelled from the spec: the fixed lexical patterns approximating the
declaration start of the function named `name` (keyword-based function
declaration, class declaration, assignment-to-function-expression). -/
def declPatterns (name : String) : List String :=
  ["function " ++ name, "class " ++ name, name ++ " = function", name ++ " = ("]

/-- Modelled from the spec: the first (earliest) textual match of one of
the fixed declaration patterns. -/
def declStart (text name : String) : Option Nat :=
  ((declPatterns name).filterMap (fun p => strIndexOf text p)).min?

/-- Scan forward counting brace nesting; the result is the offset one past
the closing brace matching the first opening brace, or `none` when the
braces never balance. -/
def braceScan : List Char → Nat → Bool → Nat → Option Nat
  | [], _, _, _ => none
  | ch :: rest, i, started, depth =>
    if ch = lbrace then braceScan rest (i + 1) true (depth + 1)
    else if ch = rbrace ∧ started then
      (if depth ≤ 1 then some (i + 1) else braceScan rest (i + 1) started (depth - 1))
    else braceScan rest (i + 1) started depth

/-- Modelled from the spec: function A's approximate body span — from the
first pattern match, to the matching closing brace, falling back to end of
file when unbalanced; empty when no pattern matches. -/
def bodySpan (text name : String) : String :=
  match declStart text name with
  | none => ""
  | some i =>
    let tail := text.data.drop i
    match braceScan tail 0 false 0 with
    | some j => String.mk (tail.take j)
    | none => String.mk tail

/-- Modelled from the spec: the legacy dependency set of function `a` —
the ids of the other functions of the same flat list whose name followed
by an opening parenthesis occurs in `a`'s approximated body span. -/
def calcDependOn (text : String) (fns : List LegacyFunctionDeclaration)
    (a : LegacyFunctionDeclaration) : List Nat :=
  (fns.filter (fun b =>
    !(b.id == a.id) &&
      strContains (bodySpan text a.functionName) (b.functionName ++ "("))).map (·.id)

/-- C8: in legacy dependency mode, for any functions A and B of the flat
per-file list (with the list's ids duplicate-free, as one run guarantees,
and B other than A), B's id is recorded in A's `dependOn` set exactly when
B's name followed by an opening parenthesis occurs within A's approximated
body span — a purely textual criterion, so call-shaped occurrences inside
string literals or comments also count (false positives by design). -/
theorem claim8_dependOn (text : String) (fns : List LegacyFunctionDeclaration)
    (a b : LegacyFunctionDeclaration) (ha : a ∈ fns) (hb : b ∈ fns)
    (hnodup : (fns.map (·.id)).Nodup) (hne : b.id ≠ a.id) :
    b.id ∈ calcDependOn text fns a ↔
      strContains (bodySpan text a.functionName) (b.functionName ++ "(") = true := by
  unfold calcDependOn
  constructor
  · intro h
    rcases List.mem_map.mp h with ⟨b', hb', hid⟩
    rcases List.mem_filter.mp hb' with ⟨hbmem, hcond⟩
    have hbb : b' = b := List.inj_on_of_nodup_map hnodup hbmem hb hid
    rw [hbb] at hcond
    exact (Bool.and_eq_true _ _).mp hcond |>.2
  · intro h
    refine List.mem_map.mpr ⟨b, List.mem_filter.mpr ⟨hb, ?_⟩, rfl⟩
    refine (Bool.and_eq_true _ _).mpr ⟨?_, h⟩
    simp [hne]

/-! ### Witnesses

Each witness is a closed statement applying its claim's theorem at a
concrete input, discharging every hypothesis there. -/

/-- C1 (witness): `.md` is an unknown extension, and `parseFile` on
`notes.md` returns the empty `FileDeclaration` with the counter
untouched. -/
theorem claim1_witness :
    getLanguageForFile "notes.md" = "unknown" ∧
    parseFile tsEnv "notes.md" 7 = (⟨"notes.md", [], []⟩, 7) :=
  ⟨by decide, claim1_parseFile_fault_empty tsEnv "notes.md" 7 (Or.inl (by decide))⟩

/-- C3 (witness): in the parse of the `tsEnv` TypeScript file, the method
`f` of class `C` is in the class's `methods` list and not in the
top-level `functions` list. -/
theorem claim3_witness :
    (⟨2, "f", 1, [⟨"x", "number", false⟩], some "string"⟩ : FunctionDeclaration) ∉
      (parseFile tsEnv "a.ts" 1).1.functions :=
  claim3_method_not_in_functions tsEnv "a.ts" 1
    ⟨3, "C", 1, "", [⟨2, "f", 1, [⟨"x", "number", false⟩], some "string"⟩]⟩
    ⟨2, "f", 1, [⟨"x", "number", false⟩], some "string"⟩
    (by rw [tsParse_eq]; decide) (by decide)

/-- The type-annotation node of the witness parameter for C4 (spanning
`: number` in the content `x: number`). -/
def c4TypeNode : Node := .mk "type_annotation" true (some "type") 1 9 "" []

/-- The witness parameter for C4: a `required_parameter` with pattern `x`
and an explicit type annotation. -/
def c4Param : Node :=
  .mk "required_parameter" true none 0 9 ""
    [.mk "identifier" true (some "pattern") 0 1 "x" [], c4TypeNode]

/-- The formal-parameters node of the C4 witness. -/
def c4Params : Node :=
  .mk "formal_parameters" true (some "parameters") 0 9 "" [c4Param]

/-- The function-declaration node of the C4 witness. -/
def c4Fn : Node :=
  .mk "function_declaration" true none 0 9 ""
    [.mk "identifier" true (some "name") 0 0 "g" [], c4Params]

/-- C4 (witness): the parameter `x` of `c4Fn` has the explicit syntactic
type `number` while the doc-comment map says `string`; the surviving type
is `number`. -/
theorem claim4_witness :
    ParameterInfo.mk "x" "number" false ∈
      extractParameters "x: number" [("x", "string")] c4Fn :=
  claim4_explicit_type_wins "x: number" [("x", "string")] c4Fn c4Params c4Param
    (by decide) (by decide) (by decide)

/-- C6 (witness): the concrete `interface_declaration` node is traversed
generically — with list-collecting visitors, traversing the node equals
traversing just its children. -/
theorem claim6_witness :
    traverseTree (fun n (l : List String) => l ++ [getNodeName n])
        (fun n l => l ++ [getNodeName n]) ifaceDeclNode [] =
      traverseList (fun n (l : List String) => l ++ [getNodeName n])
        (fun n l => l ++ [getNodeName n]) ifaceDeclNode.children [] :=
  claim6_interface_generic _ _ ifaceDeclNode [] (by decide)

/-- The object-pattern parameter node of the C7 witness. -/
def c7Obj : Node := .mk "object_pattern" true none 0 0 "a, b" []

/-- The array-pattern parameter node of the C7 witness. -/
def c7Arr : Node := .mk "array_pattern" true none 0 0 "a, b" []

/-- C7 (witness): the object-pattern parameter with text `a, b` yields
name `\x7ba, b\x7d` and type `object`; the array-pattern parameter yields
name `[a, b]` and type `array`. -/
theorem claim7_witness :
    processParam "" [] c7Obj = some ⟨"\x7ba, b\x7d", "object", false⟩ ∧
    processParam "" [] c7Arr = some ⟨"[a, b]", "array", false⟩ :=
  claim7_destructured_params "" [] c7Obj c7Arr (by decide) (by decide)

/-- The file text of the C8 witness: `f`'s body calls `g`. -/
def depText : String := "function f() \x7b g() \x7d function g() \x7b \x7d"

/-- The first legacy record of the C8 witness. -/
def depF : LegacyFunctionDeclaration := ⟨1, "f", 1, "a.js"⟩

/-- The second legacy record of the C8 witness. -/
def depG : LegacyFunctionDeclaration := ⟨2, "g", 2, "a.js"⟩

/-- The flat function list of the C8 witness. -/
def depFns : List LegacyFunctionDeclaration := [depF, depG]

/-- C8 (witness): `g`'s id is recorded in `f`'s dependency set because
`g(` occurs textually in `f`'s approximated body span. -/
theorem claim8_witness : (2 : Nat) ∈ calcDependOn depText depFns depF :=
  (claim8_dependOn depText depFns depF depG (by decide) (by decide) (by decide)
    (by decide)).mpr (by decide)

/-- The extraction context of the C9 witness: a TypeScript file with the
type-info entry `f : (x : number) → string`. -/
def c9Ctx : ExtractCtx :=
  { content := ""
    isTypeScript := true
    typeInfo := [("f", ⟨[("x", "number")], "string"⟩)]
    commentMap := []
    docParams := fun _ => []
    docReturns := fun _ => none }

/-- C9 (witness): the top-level function `f` and the class-body method
`f` both receive the parameter type `number` and the return type `string`
from the single type-info entry for the name `f`. -/
theorem claim9_witness :
    visitFunction c9Ctx fnDeclNode ⟨1, [], []⟩ =
      ⟨2, [⟨1, "f", 1, [⟨"x", "number", false⟩], some "string"⟩], []⟩ ∧
    classMemberRecord c9Ctx methodDefNode 5 =
      some ⟨5, "f", 1, [⟨"x", "number", false⟩], some "string"⟩ :=
  claim9_name_keyed_typeinfo c9Ctx ⟨1, [], []⟩ fnDeclNode methodDefNode "f" 5
    (by decide) (by decide) (by decide) (by decide)

/-- The extraction context of the C10 witness. -/
def c10Ctx : ExtractCtx :=
  { content := ""
    isTypeScript := false
    typeInfo := []
    commentMap := []
    docParams := fun _ => []
    docReturns := fun _ => none }

/-- The function `g` declared inside the method body of the C10 witness. -/
def c10Inner : Node :=
  .mk "function_declaration" true none 0 0 ""
    [.mk "identifier" true (some "name") 0 0 "g" []]

/-- The method `m` of the C10 witness, whose statement-block body holds
`c10Inner`. -/
def c10Method : Node :=
  .mk "method_definition" true none 0 0 ""
    [.mk "property_identifier" true (some "name") 0 0 "m" [],
     .mk "statement_block" true (some "body") 0 0 "" [c10Inner]]

/-- The class body of the C10 witness. -/
def c10Body : Node := .mk "class_body" true (some "body") 0 0 "" [c10Method]

/-- The class node of the C10 witness: `class K { m() { function g() … } }`. -/
def c10Class : Node :=
  .mk "class_declaration" true none 0 0 ""
    [.mk "type_identifier" true (some "name") 0 0 "K" [], c10Body]

/-- C10 (witness): the function `g` declared inside the method body of
`class K` is never reported when the class subtree is extracted. -/
theorem claim10_witness : c10Inner ∉ reportedNodes c10Ctx c10Class :=
  claim10_nested_not_reported c10Ctx c10Class c10Body c10Inner
    (by decide) (by decide) (by decide) (by decide)
    (by
      intro c hc
      have he : c10Class.children.eraseP (fun c => c.field == some "body") =
          [Node.mk "type_identifier" true (some "name") 0 0 "K" []] := by decide
      rw [he] at hc
      rw [List.mem_singleton.mp hc]
      have hs : subtreeNodes (Node.mk "type_identifier" true (some "name") 0 0 "K" []) =
          [Node.mk "type_identifier" true (some "name") 0 0 "K" []] := by
        rw [subtreeNodes]
        simp [Node.children, subtreeList]
      rw [hs]
      decide)

end Funsig
